import Mathlib

/-!
Verification development for the retrieval-and-ranking engine of an
AI commerce agent (catalog search backend).

The definitions below are a shallow embedding of the Python source:
`backend/app.py` (`_pick_with_filters`, `_keyword_fallback`, the chat
product post-processing) and `backend/agent/tools.py` (`apply_filters`,
`CatalogIndex._mmr`, `CatalogIndex._search`, `CatalogIndex.__init__`
cache loading, `CatalogIndex.search_similar_to_id`).

Modelling conventions:
- Python floats are modelled as exact rationals (ℚ).
- `pandas.Series.str.contains(pat, case=False)` is modelled as
  case-insensitive substring containment (the patterns used by the
  application are plain category/tag words, for which the regex engine
  behaves as substring search).
- Python string truthiness (`if f.brand:`) is modelled by `optStrSet`.
- Python stable sorting (`list.sort(key=..., reverse=True)`) is modelled
  as sorting the position-tagged list by the lexicographic order
  (score descending, original position ascending), which is the unique
  output a stable descending sort can produce.
-/

/-- Python `str.lower()` (ASCII domain of this catalog). -/
def lowerStr (s : String) : String :=
  String.mk (s.data.map Char.toLower)

/-- Python `str.strip()`: drop leading and trailing whitespace. -/
def stripChars (cs : List Char) : List Char :=
  ((cs.dropWhile Char.isWhitespace).reverse.dropWhile Char.isWhitespace).reverse

/-- Case-insensitive substring test: Python `needle in hay` on lowered
strings; both sides are taken as already lowered by the caller. -/
def substrB (needle hay : String) : Bool :=
  decide (needle.data <:+: hay.data)

/-- `pandas.Series.str.contains(pat, case=False, na=False)` as used on the
plain category/tag patterns of this application. -/
def strContainsCI (hay pat : String) : Bool :=
  substrB (lowerStr pat) (lowerStr hay)

/-- Python truthiness for an `Optional[str]` field: `None` and `""` are
falsy, everything else truthy. -/
def optStrSet : Option String → Bool
  | none => false
  | some s => !(s == "")

/-- A catalog row (`Product` / one row of `CatalogIndex.df`). -/
structure Entry where
  id : String
  title : String
  description : String
  category : String
  brand : String
  price : ℚ
  currency : String
  image_url : String
  tags : String
deriving DecidableEq, Repr, Inhabited

/-- `FilterSpec` from `backend/agent/models.py`. -/
structure FilterSpec where
  brand : Option String := none
  category : Option String := none
  price_min : Option ℚ := none
  price_max : Option ℚ := none
  tags_contains : Option String := none
deriving DecidableEq, Repr, Inhabited

/-- One row passes `apply_filters` (conjunction of the five sequential
pandas filters of `backend/agent/tools.py::apply_filters`). -/
def matchesFilters (f : FilterSpec) (r : Entry) : Bool :=
  (if optStrSet f.brand then lowerStr r.brand == lowerStr (f.brand.getD "") else true) &&
  (if optStrSet f.category then strContainsCI r.category (f.category.getD "") else true) &&
  (match f.price_min with | some m => decide (m ≤ r.price) | none => true) &&
  (match f.price_max with | some m => decide (r.price ≤ m) | none => true) &&
  (if optStrSet f.tags_contains then strContainsCI r.tags (f.tags_contains.getD "") else true)

/-- `apply_filters(df, f)`: sequence of dataframe row filters, brand,
category, price_min, price_max, tags, in source order. -/
def applyFilters (df : List Entry) (f : FilterSpec) : List Entry :=
  let out := df
  let out := if optStrSet f.brand then out.filter (fun r => lowerStr r.brand == lowerStr (f.brand.getD "")) else out
  let out := if optStrSet f.category then out.filter (fun r => strContainsCI r.category (f.category.getD "")) else out
  let out := match f.price_min with | some m => out.filter (fun r => decide (m ≤ r.price)) | none => out
  let out := match f.price_max with | some m => out.filter (fun r => decide (r.price ≤ m)) | none => out
  let out := if optStrSet f.tags_contains then out.filter (fun r => strContainsCI r.tags (f.tags_contains.getD "")) else out
  out

/-- `norm` inside `_pick_with_filters`: lowercase, keep only alphanumeric
or whitespace characters, then strip. -/
def normKey (s : String) : String :=
  String.mk (stripChars
    ((s.data.map Char.toLower).filter (fun c => c.isAlphanum || c.isWhitespace)))

/-- Dedup key of a catalog row: normalized (title, brand). -/
def dedupKey (e : Entry) : String × String :=
  (normKey e.title, normKey e.brand)

/-- Dedup key of the row at index `i` of the catalog. -/
def dedupKeyAt (df : List Entry) (i : Nat) : String × String :=
  dedupKey (df.getD i default)

/-- Loop body of `add_unique`: walk the pool, break once `top_k` picks are
reached, skip indices whose dedup key was already seen. -/
def addUniqueGo (df : List Entry) (top_k : Nat) :
    List (String × String) → List Nat → List Nat → List Nat
  | _, out, [] => out
  | seen, out, i :: rest =>
    if top_k ≤ out.length then out
    else
      let k := dedupKeyAt df i
      if k ∈ seen then addUniqueGo df top_k seen out rest
      else addUniqueGo df top_k (k :: seen) (out ++ [i]) rest

/-- `add_unique(seed, pool)` inside `_pick_with_filters`. -/
def addUnique (df : List Entry) (top_k : Nat) (seed pool : List Nat) : List Nat :=
  addUniqueGo df top_k (seed.map (dedupKeyAt df)) seed pool

/-- `within_price_brand(i)` inside `_pick_with_filters`: price bounds are
always enforced, and brand (exact, case-insensitive) when specified. -/
def withinPriceBrand (df : List Entry) (f : FilterSpec) (i : Nat) : Bool :=
  let r := df.getD i default
  (match f.price_min with | some m => decide (m ≤ r.price) | none => true) &&
  (match f.price_max with | some m => decide (r.price ≤ m) | none => true) &&
  (if optStrSet f.brand then lowerStr r.brand == lowerStr (f.brand.getD "") else true)

/-- Stage 1 of `_pick_with_filters`: strict filtering through
`apply_filters`, membership tested via the allowed id set. -/
def pickStage1 (df : List Entry) (f : FilterSpec) (top_k : Nat)
    (cand_idxs : List Nat) : List Nat :=
  let allowedIds := (applyFilters df f).map Entry.id
  let primaryAll := cand_idxs.filter (fun i => (df.getD i default).id ∈ allowedIds)
  addUnique df top_k [] primaryAll

/-- Stage 2 of `_pick_with_filters`: relax within the same category,
keeping price and brand constraints. -/
def pickStage2 (df : List Entry) (f : FilterSpec) (top_k : Nat)
    (cand_idxs chosen : List Nat) : List Nat :=
  if chosen.length < top_k ∧ optStrSet f.category then
    let cat := lowerStr (f.category.getD "")
    let catPool := cand_idxs.filter
      (fun i => decide (i ∉ chosen) && substrB cat (lowerStr (df.getD i default).category)
        && withinPriceBrand df f i)
    addUnique df top_k chosen catPool
  else chosen

/-- Stage 3 of `_pick_with_filters`: fill with any candidate satisfying
price and brand; skipped whenever a category constraint exists. -/
def pickStage3 (df : List Entry) (f : FilterSpec) (top_k : Nat)
    (cand_idxs chosen : List Nat) : List Nat :=
  if chosen.length < top_k ∧ ¬ (optStrSet f.category = true) then
    let fillPool := cand_idxs.filter
      (fun i => decide (i ∉ chosen) && withinPriceBrand df f i)
    addUnique df top_k chosen fillPool
  else chosen

/-- Stages 1–3 of `_pick_with_filters` (everything before the
minimum-unique override). -/
def pickStages (df : List Entry) (f : FilterSpec) (top_k : Nat)
    (cand_idxs : List Nat) : List Nat :=
  pickStage3 df f top_k cand_idxs
    (pickStage2 df f top_k cand_idxs (pickStage1 df f top_k cand_idxs))

/-- `_pick_with_filters(scored_list, filters, top_k)` with the
`MIN_UNIQUE_RESULTS` environment value as `min_unique` (default 2). -/
def pickWithFilters (df : List Entry) (f : FilterSpec) (top_k min_unique : Nat)
    (scored : List (Nat × ℚ)) : List Nat :=
  let cand_idxs := scored.map Prod.fst
  let chosen := pickStages df f top_k cand_idxs
  if chosen.length < min_unique ∧ min_unique ≤ cand_idxs.length then
    (addUnique df top_k [] cand_idxs).take (max min_unique top_k)
  else chosen

/-- `any([...])` over the five filter fields (Python truthiness). -/
def anyFilterSet (f : FilterSpec) : Bool :=
  optStrSet f.brand || optStrSet f.category || f.price_min.isSome ||
  f.price_max.isSome || optStrSet f.tags_contains

/-- Split a character list on space runs, dropping empty tokens
(Python `str.split()` on the space-normalized text). -/
def kwSplitAux : List Char → List Char → List String
  | [], acc => if acc.isEmpty then [] else [String.mk acc.reverse]
  | c :: cs, acc =>
    if c = ' ' then
      if acc.isEmpty then kwSplitAux cs []
      else String.mk acc.reverse :: kwSplitAux cs []
    else kwSplitAux cs (c :: acc)

/-- Tokenizer of `_keyword_fallback`: lowercase, replace every
non-alphanumeric character by a space, split on whitespace runs. -/
def kwTokens (text : String) : List String :=
  kwSplitAux ((lowerStr text).data.map
      (fun c => if c.isAlphanum then c else ' ')) []

/-- The keyword score accumulated before the price/category guards:
brand literal hit, tag hits (+2 each distinct token), title/description
hits (+1 each distinct token). -/
def kwBase (textL : String) (tokenSet : List String) (r : Entry) : ℚ :=
  (if !(lowerStr r.brand == "") && substrB (lowerStr r.brand) textL then 5 else 0)
  + 2 * ((tokenSet.filter
      (fun t => !(t == "") && substrB t (lowerStr r.tags))).length : ℚ)
  + ((tokenSet.filter
      (fun t => !(t == "") &&
        (substrB t (lowerStr r.title) || substrB t (lowerStr r.description)))).length : ℚ)

/-- The per-row body of the `_keyword_fallback` scoring loop: `none`
models `continue` (hard reject) and rows whose score is not positive. -/
def kwRow (df : List Entry) (f : FilterSpec) (textL : String)
    (tokenSet : List String) (i : Nat) : Option (Nat × ℚ) :=
  let r := df.getD i default
  let s := kwBase textL tokenSet r
  if (match f.price_min with | some m => decide (r.price < m) | none => false) then none
  else if (match f.price_max with | some m => decide (m < r.price) | none => false) then none
  else
    let s := s + (match f.price_max with
      | some mx => (mkRat 3 2) * (r.price / max mx (mkRat 1 1000000))
      | none => 0)
    if optStrSet f.category &&
        !(substrB (lowerStr (f.category.getD "")) (lowerStr r.category)) then none
    else if 0 < s then some (i, s) else none

/-- Candidate pool of `_keyword_fallback` as original row indices:
`apply_filters(df, filters)` when any filter is set, else the whole
catalog (`cand.reset_index()` keeps the original index). -/
def kwPool (df : List Entry) (f : FilterSpec) : List Nat :=
  if anyFilterSet f then
    (List.range df.length).filter (fun i => matchesFilters f (df.getD i default))
  else List.range df.length

/-- Lexicographic order used to model Python's stable descending sort
`xs.sort(key=lambda x: x[1], reverse=True)` on position-tagged pairs:
higher score first, ties by original position. -/
def rLex (a b : Nat × Nat × ℚ) : Prop :=
  b.2.2 < a.2.2 ∨ (a.2.2 = b.2.2 ∧ a.1 ≤ b.1)

instance : DecidableRel rLex := fun a b => by
  unfold rLex; infer_instance

/-- Stable descending sort by score of an (index, score) list, modelled
as the lexicographic sort of the position-tagged list. -/
def stableSortDesc (l : List (Nat × ℚ)) : List (Nat × ℚ) :=
  ((l.enum).insertionSort rLex).map Prod.snd

/-- `_keyword_fallback(user_text, filters, top_k)` from `app.py`, for a
non-negative `top_k` (then the final `scores[:top_k]` slice is an
ordinary prefix). `keywordFallbackI` below is the general model for the
raw integer `req.top_k` the handler passes. -/
def keywordFallback (df : List Entry) (f : FilterSpec) (user_text : String)
    (top_k : Nat) : List Nat :=
  let textL := lowerStr user_text
  let tokenSet := (kwTokens user_text).dedup
  let scores := (kwPool df f).filterMap (kwRow df f textL tokenSet)
  ((stableSortDesc scores).take top_k).map Prod.fst

/-- First position of the maximum of a rational list (`np.argmax`). -/
def argmaxQ : List ℚ → Nat
  | [] => 0
  | [_] => 0
  | x :: y :: xs =>
    if x < (y :: xs).getD (argmaxQ (y :: xs)) 0 then argmaxQ (y :: xs) + 1 else 0

/-- Maximum of a rational list, 0 on the empty list (mirrors the
`sim_items[:, sel_mask].max(axis=1) if sel_mask.any() else zeros`
shape of the source). -/
def maxListQ : List ℚ → ℚ
  | [] => 0
  | x :: xs => xs.foldl max x

/-- Inner product of two embedding vectors. -/
def dotQ (u v : List ℚ) : ℚ :=
  (List.zipWith (fun a b => a * b) u v).sum

/-- Pairwise candidate similarity `sim_items[i][j]` inside `_mmr`:
inner product of the embeddings of candidates at positions `i`, `j`. -/
def simItemsOf (emb : List (List ℚ)) (cand_idxs : List Nat) (i j : Nat) : ℚ :=
  dotQ (emb.getD (cand_idxs.getD i 0) []) (emb.getD (cand_idxs.getD j 0) [])

/-- Penalty of candidate `i`: max similarity to any selected candidate. -/
def mmrPenalty (sI : Nat → Nat → ℚ) (selected : List Nat) (i : Nat) : ℚ :=
  maxListQ (selected.map (fun j => sI i j))

/-- The masked MMR score vector over candidate positions `0..n-1`:
already-selected positions are forced to `-1e9`. -/
def mmrScoreList (n : Nat) (sQ : Nat → ℚ) (sI : Nat → Nat → ℚ) (d : ℚ)
    (selected : List Nat) : List ℚ :=
  (List.range n).map (fun i =>
    if i ∈ selected then -(10 ^ 9 : ℚ)
    else d * sQ i - (1 - d) * mmrPenalty sI selected i)

/-- One pick of the `_mmr` loop: first pick is the raw-similarity argmax,
later picks are the argmax of the masked MMR score vector. -/
def mmrPick (n : Nat) (sQ : Nat → ℚ) (sI : Nat → Nat → ℚ) (d : ℚ)
    (selected : List Nat) : Nat :=
  match selected with
  | [] => argmaxQ ((List.range n).map sQ)
  | _ => argmaxQ (mmrScoreList n sQ sI d selected)

/-- The `_mmr` while-loop, running exactly `fuel` more iterations. -/
def mmrLoop (n : Nat) (sQ : Nat → ℚ) (sI : Nat → Nat → ℚ) (d : ℚ) :
    Nat → List Nat → List Nat
  | 0, selected => selected
  | fuel + 1, selected =>
    mmrLoop n sQ sI d fuel (selected ++ [mmrPick n sQ sI d selected])

/-- Selected candidate-list positions of `_mmr`. -/
def mmrPositions (n : Nat) (sQ : Nat → ℚ) (sI : Nat → Nat → ℚ)
    (top_k : Nat) (d : ℚ) : List Nat :=
  mmrLoop n sQ sI d (min top_k n) []

/-- `CatalogIndex._mmr(query_vec, cand_idxs, cand_scores, top_k, diversity)`:
returns catalog entry indices in selection order. -/
def mmr (emb : List (List ℚ)) (cand_idxs : List Nat) (cand_scores : List ℚ)
    (top_k : Nat) (d : ℚ) : List Nat :=
  (mmrPositions cand_idxs.length (fun i => cand_scores.getD i 0)
      (simItemsOf emb cand_idxs) top_k d).map (fun j => cand_idxs.getD j 0)

/-- The adjusted score of `_search` after MMR: recomputed exact similarity
plus the structured-match boosts, accumulated in source order. -/
def adjustedScore (emb : List (List ℚ)) (df : List Entry) (q : List ℚ)
    (f : Option FilterSpec) (idx : Nat) : ℚ :=
  let score := dotQ q (emb.getD idx [])
  match f with
  | none => score
  | some f =>
    let r := df.getD idx default
    let score := if optStrSet f.brand && (lowerStr r.brand == lowerStr (f.brand.getD ""))
      then score + mkRat 5 100 else score
    let score := if optStrSet f.category && substrB (lowerStr (f.category.getD "")) (lowerStr r.category)
      then score + mkRat 3 100 else score
    let score := if optStrSet f.tags_contains && substrB (lowerStr (f.tags_contains.getD "")) (lowerStr r.tags)
      then score + mkRat 2 100 else score
    match f.price_max with
    | some mx => if r.price ≤ mx then score + (mkRat 3 100) * (r.price / max mx (mkRat 1 1000000)) else score
    | none => score

/-- The post-MMR boost-and-resort phase of `_search` (lines building `out`,
the stable descending sort, and the `[:top_k]` truncation). -/
def boostAndSort (emb : List (List ℚ)) (df : List Entry) (q : List ℚ)
    (f : Option FilterSpec) (top_k : Nat) (pick_idxs : List Nat) :
    List (Nat × ℚ) :=
  (stableSortDesc (pick_idxs.map (fun i => (i, adjustedScore emb df q f i)))).take top_k

/-- Exact inner-product search over all stored embeddings: descending by
score, ties by ascending entry index, truncated to `fetch_k`
(`_raw_search` with the `-1` markers of an exhausted index dropped). -/
def rawSearch (emb : List (List ℚ)) (q : List ℚ) (fetch_k : Nat) :
    List (Nat × ℚ) :=
  (stableSortDesc ((List.range emb.length).map (fun i => (i, dotQ q (emb.getD i []))))).take fetch_k

/-- Order-preserving dedup by entry index inside `_search`. -/
def dedupFstGo : List Nat → List (Nat × ℚ) → List (Nat × ℚ)
  | _, [] => []
  | seen, p :: rest =>
    if p.1 ∈ seen then dedupFstGo seen rest
    else p :: dedupFstGo (p.1 :: seen) rest

/-- `CatalogIndex._search(query_emb, top_k, filters)`. -/
def searchQ (emb : List (List ℚ)) (df : List Entry) (q : List ℚ)
    (top_k : Nat) (f : Option FilterSpec) : List (Nat × ℚ) :=
  let fetch_k := max (top_k * 5) 20
  let uniq := dedupFstGo [] (rawSearch emb q fetch_k)
  if uniq.isEmpty then []
  else
    let pick := mmr emb (uniq.map Prod.fst) (uniq.map Prod.snd) top_k (mkRat 3 10)
    boostAndSort emb df q f top_k pick

/-- `CatalogIndex.search_similar_to_id(pid, top_k)`. The `Except` wrapper
makes the failure channel of the source explicit: the body contains no
raise path, so every branch returns `Except.ok`. -/
def searchSimilarToId (emb : List (List ℚ)) (df : List Entry) (pid : String)
    (top_k : Nat) : Except String (List (Nat × ℚ)) :=
  match (List.range df.length).find? (fun i => (df.getD i default).id == pid) with
  | none => Except.ok []
  | some baseIdx =>
    let q := emb.getD baseIdx []
    let scored := searchQ emb df q (top_k + 1) none
    Except.ok ((scored.filter (fun p => !((df.getD p.1 default).id == pid))).take top_k)

/-- On-disk cache as seen by `CatalogIndex.__init__`: `none` models a
missing or unreadable file (the whole load is wrapped in try/except). -/
structure CacheState where
  idsFile : Option (List String)
  embFile : Option (List (List ℚ))
deriving Repr

/-- The cache-loading condition of `CatalogIndex.__init__`: both files
present and readable, manifest length and embedding row count both equal
to the catalog length, and the id sequences equal element-wise. -/
def loadCache (catalogIds : List String) (c : CacheState) :
    Option (List (List ℚ)) :=
  match c.idsFile, c.embFile with
  | some ids, some embs =>
    if ids.length = catalogIds.length ∧ embs.length = catalogIds.length then
      if catalogIds = ids then some embs else none
    else none
  | _, _ => none

/-- `self.embeddings` after `CatalogIndex.__init__`: the cached vectors on
a hit, otherwise the freshly computed ones (silent recomputation). -/
def initEmbeddings (catalogIds : List String) (c : CacheState)
    (computed : List (List ℚ)) : List (List ℚ) :=
  match loadCache catalogIds c with
  | some embs => embs
  | none => computed

/-- The final-safety prune of the chat handler: drop anything outside
`apply_filters` when any filter field is set. -/
def chatPostFilter (df : List Entry) (f : FilterSpec) (products : List Nat) :
    List Nat :=
  if anyFilterSet f then
    products.filter (fun i => (df.getD i default).id ∈ (applyFilters df f).map Entry.id)
  else products

/-- The id-dedup loop at the end of the chat handler (`_seen`/`_unique`). -/
def dedupByIdGo (df : List Entry) : List String → List Nat → List Nat
  | _, [] => []
  | seen, i :: rest =>
    if (df.getD i default).id ∈ seen then dedupByIdGo df seen rest
    else i :: dedupByIdGo df ((df.getD i default).id :: seen) rest

/-- De-duplicate products by id while preserving order (chat handler). -/
def dedupById (df : List Entry) (l : List Nat) : List Nat :=
  dedupByIdGo df [] l

/-- Products of the chat TEXT_RECOMMEND branch before the final id-dedup:
relaxation pipeline, keyword fallback if it produced nothing, then the
final-safety prune. -/
def chatProductsPre (df : List Entry) (f : FilterSpec) (user_text : String)
    (top_k min_unique : Nat) (scored : List (Nat × ℚ)) : List Nat :=
  let chosen := pickWithFilters df f top_k min_unique scored
  let products := if chosen.isEmpty then keywordFallback df f user_text top_k
    else chosen
  chatPostFilter df f products

/-- Products of the chat TEXT_RECOMMEND branch as returned in the
`ChatResponse` (after the id-dedup). -/
def chatProducts (df : List Entry) (f : FilterSpec) (user_text : String)
    (top_k min_unique : Nat) (scored : List (Nat × ℚ)) : List Nat :=
  dedupById df (chatProductsPre df f user_text top_k min_unique scored)

/-- Spec-side: remove duplicates by id keeping the first occurrence and
preserving the order of the remaining elements. -/
def keepFirstById (df : List Entry) : List Nat → List Nat
  | [] => []
  | i :: rest =>
    i :: keepFirstById df
      (rest.filter (fun j => decide ((df.getD j default).id ≠ (df.getD i default).id)))
termination_by l => l.length
decreasing_by
  exact Nat.lt_succ_of_le (List.length_filter_le _ _)

/-- First element of `ps` attaining the maximum of `f` (stable argmax
over an explicit position list). -/
def firstMaxAmong (f : Nat → ℚ) (ps : List Nat) : Nat :=
  ps.getD (argmaxQ (ps.map f)) 0

/-- First element of `ps` attaining the minimum of `f`. -/
def firstMinAmong (f : Nat → ℚ) (ps : List Nat) : Nat :=
  firstMaxAmong (fun i => -(f i)) ps

/-- Candidate positions not yet selected, in candidate order. -/
def remainingPos (n : Nat) (sel : List Nat) : List Nat :=
  (List.range n).filter (fun i => decide (i ∉ sel))

/-- Spec-side: pure relevance pick — the first not-yet-chosen candidate
with the highest raw similarity to the query. -/
def relevancePick (sQ : Nat → ℚ) (n : Nat) (sel : List Nat) : Nat :=
  firstMaxAmong sQ (remainingPos n sel)

/-- Spec-side: pure anti-redundancy pick — the first not-yet-chosen
candidate least similar to any already-chosen candidate. -/
def leastSimilarPick (sI : Nat → Nat → ℚ) (n : Nat) (sel : List Nat) : Nat :=
  firstMinAmong (fun i => mmrPenalty sI sel i) (remainingPos n sel)

/-- Generic selection loop used by the spec-side orders. -/
def specLoop (pick : List Nat → Nat) : Nat → List Nat → List Nat
  | 0, sel => sel
  | fuel + 1, sel => specLoop pick fuel (sel ++ [pick sel])

/-- Spec-side: the pure relevance ranking (raw similarity descending,
ties by candidate position), first `k` positions. -/
def pureRelevanceOrder (sQ : Nat → ℚ) (n k : Nat) : List Nat :=
  specLoop (relevancePick sQ n) k []

/-- Spec-side: most relevant candidate first, then always the
least-similar-to-selected candidate. -/
def antiRedundancyOrder (sQ : Nat → ℚ) (sI : Nat → Nat → ℚ) (n k : Nat) :
    List Nat :=
  specLoop (fun sel => match sel with
    | [] => relevancePick sQ n sel
    | _ => leastSimilarPick sI n sel) k []

/-- Spec-side: the adjusted score exactly as the specification words it —
recomputed query·itemVector similarity plus one bonus per matching set
constraint field. -/
def adjustedScoreSpec (emb : List (List ℚ)) (df : List Entry) (q : List ℚ)
    (f : Option FilterSpec) (idx : Nat) : ℚ :=
  dotQ q (emb.getD idx []) +
  (match f with
  | none => 0
  | some f =>
    let r := df.getD idx default
    (if optStrSet f.brand ∧ lowerStr r.brand = lowerStr (f.brand.getD "")
      then mkRat 5 100 else 0)
    + (if optStrSet f.category ∧
          substrB (lowerStr (f.category.getD "")) (lowerStr r.category) = true
      then mkRat 3 100 else 0)
    + (if optStrSet f.tags_contains ∧
          substrB (lowerStr (f.tags_contains.getD "")) (lowerStr r.tags) = true
      then mkRat 2 100 else 0)
    + (match f.price_max with
      | some mx => if r.price ≤ mx
          then (mkRat 3 100) * (r.price / max mx (mkRat 1 1000000)) else 0
      | none => 0))

/-- Spec-side: `output` is the stable descending-by-score sort of
`input`: a permutation, sorted with scores non-increasing, and every
equal-score group appears in its original relative order. -/
def IsStableSortDesc (input output : List (Nat × ℚ)) : Prop :=
  output.Perm input ∧
  output.Pairwise (fun a b => b.2 ≤ a.2) ∧
  ∀ s : ℚ, output.filter (fun x => decide (x.2 = s)) =
    input.filter (fun x => decide (x.2 = s))

/-! ### Lemmas about the id-dedup loop -/

theorem dedupByIdGo_sublist (df : List Entry) :
    ∀ (l : List Nat) (seen : List String), List.Sublist (dedupByIdGo df seen l) l := by
  intro l
  induction l with
  | nil => intro seen; simp [dedupByIdGo]
  | cons i rest ih =>
    intro seen
    by_cases h : (df.getD i default).id ∈ seen
    · simp only [dedupByIdGo, if_pos h]
      exact (ih seen).cons i
    · simp only [dedupByIdGo, if_neg h]
      exact (ih _).cons₂ i

theorem dedupByIdGo_id_not_seen (df : List Entry) :
    ∀ (l : List Nat) (seen : List String) (i : Nat),
      i ∈ dedupByIdGo df seen l → (df.getD i default).id ∉ seen := by
  intro l
  induction l with
  | nil => intro seen i h; simp [dedupByIdGo] at h
  | cons j rest ih =>
    intro seen i h
    by_cases hj : (df.getD j default).id ∈ seen
    · simp only [dedupByIdGo, if_pos hj] at h
      exact ih seen i h
    · simp only [dedupByIdGo, if_neg hj] at h
      rcases List.mem_cons.mp h with h | h
      · subst h; exact hj
      · intro hc
        exact ih _ i h (List.mem_cons_of_mem _ hc)

theorem dedupByIdGo_ids_nodup (df : List Entry) :
    ∀ (l : List Nat) (seen : List String),
      ((dedupByIdGo df seen l).map (fun i => (df.getD i default).id)).Nodup := by
  intro l
  induction l with
  | nil => intro seen; simp [dedupByIdGo]
  | cons j rest ih =>
    intro seen
    by_cases hj : (df.getD j default).id ∈ seen
    · simp only [dedupByIdGo, if_pos hj]
      exact ih seen
    · simp only [dedupByIdGo, if_neg hj, List.map_cons, List.nodup_cons]
      refine ⟨?_, ih _⟩
      intro hmem
      rcases List.mem_map.mp hmem with ⟨i, hi, hid⟩
      exact dedupByIdGo_id_not_seen df rest _ i hi (by rw [hid]; exact List.mem_cons_self _ _)

theorem dedupByIdGo_eq_keepFirst (df : List Entry) :
    ∀ (l : List Nat) (seen : List String),
      dedupByIdGo df seen l =
        keepFirstById df (l.filter (fun j => decide ((df.getD j default).id ∉ seen))) := by
  intro l
  induction l with
  | nil => intro seen; simp [dedupByIdGo, keepFirstById]
  | cons i rest ih =>
    intro seen
    by_cases h : (df.getD i default).id ∈ seen
    · simp only [dedupByIdGo, if_pos h, List.filter_cons]
      rw [decide_eq_false (not_not_intro h)]
      simp only [Bool.false_eq_true, if_false]
      exact ih seen
    · simp only [dedupByIdGo, if_neg h, List.filter_cons]
      rw [decide_eq_true h]
      simp only [if_true]
      rw [keepFirstById]
      congr 1
      rw [ih ((df.getD i default).id :: seen), List.filter_filter]
      congr 1
      apply List.filter_congr
      intro j _
      by_cases hji : (df.getD j default).id = (df.getD i default).id
      · simp [List.mem_cons, hji]
      · by_cases hjs : (df.getD j default).id ∈ seen
        · simp [List.mem_cons, hji, hjs]
        · simp [List.mem_cons, hji, hjs]
      

/-- C10: the products list of the chat response has pairwise-distinct
product ids; it is obtained from the pre-response list by removing
duplicates by id, keeping the first occurrence, preserving order. -/
theorem chat_products_distinct_ids (df : List Entry) (f : FilterSpec)
    (user_text : String) (top_k min_unique : Nat) (scored : List (Nat × ℚ)) :
    ((chatProducts df f user_text top_k min_unique scored).map
        (fun i => (df.getD i default).id)).Nodup ∧
    chatProducts df f user_text top_k min_unique scored =
      keepFirstById df (chatProductsPre df f user_text top_k min_unique scored) ∧
    List.Sublist (chatProducts df f user_text top_k min_unique scored)
      (chatProductsPre df f user_text top_k min_unique scored) := by
  refine ⟨dedupByIdGo_ids_nodup df _ [], ?_, dedupByIdGo_sublist df _ []⟩
  unfold chatProducts dedupById
  rw [dedupByIdGo_eq_keepFirst df _ []]
  congr 1
  simp

/-! ### C4: unknown entry id in the similar-items lookup -/

/-- C4 counterexample: with a one-entry catalog and an id not in the
catalog, `search_similar_to_id` returns the ordinary success value
`ok []` — no explicit failure is surfaced to the caller. -/
theorem similar_unknown_id_silent_counterexample :
    searchSimilarToId [[1]]
      [⟨"a", "Red Shirt", "cotton tee", "t-shirt", "Acme", 25, "USD", "", "shirt"⟩]
      "zzz" 6 = Except.ok [] := by
  rfl

/-- C4 amended: an entry id absent from the catalog is resolved silently
as a degraded-but-successful empty result, never as an explicit failure. -/
theorem similar_unknown_id_ok_empty (emb : List (List ℚ)) (df : List Entry)
    (pid : String) (top_k : Nat) (h : ∀ e ∈ df, e.id ≠ pid) :
    searchSimilarToId emb df pid top_k = Except.ok [] := by
  unfold searchSimilarToId
  have hfind : (List.range df.length).find?
      (fun i => (df.getD i default).id == pid) = none := by
    rw [List.find?_eq_none]
    intro i hi
    have hlt : i < df.length := List.mem_range.mp hi
    have hmem : df.getD i default ∈ df := by
      rw [List.getD_eq_getElem df default hlt]
      exact List.getElem_mem hlt
    simpa using h _ hmem
  rw [hfind]

theorem similar_unknown_id_ok_empty_witness :
    (∀ e ∈ [(⟨"a", "Red Shirt", "cotton tee", "t-shirt", "Acme", 25, "USD", "", "shirt"⟩ : Entry)],
      e.id ≠ "zzz") ∧
    searchSimilarToId [[1]]
      [⟨"a", "Red Shirt", "cotton tee", "t-shirt", "Acme", 25, "USD", "", "shirt"⟩]
      "zzz" 4 = Except.ok [] :=
  ⟨by decide, similar_unknown_id_ok_empty [[1]] _ "zzz" 4 (by decide)⟩

/-! ### C9: cache validity -/

/-- C9 counterexample: a cache whose id manifest equals the catalog id
sequence exactly, but whose embedding matrix has the wrong number of
rows, is a cache miss — refuting the claimed "if and only if the
manifest matches" condition. -/
theorem cache_manifest_match_not_sufficient :
    (CacheState.mk (some ["a"]) (some ([] : List (List ℚ)))).idsFile = some ["a"] ∧
    loadCache ["a"] (CacheState.mk (some ["a"]) (some [])) = none ∧
    initEmbeddings ["a"] (CacheState.mk (some ["a"]) (some [])) [[2]] = [[2]] := by
  refine ⟨rfl, ?_, ?_⟩ <;> rfl

/-- C9 amended: the cached vectors are used iff both cache files are
present and readable, the manifest equals the catalog id sequence in
order, and the embedding matrix row count equals the catalog length;
otherwise the store silently falls back to the freshly computed vectors. -/
theorem cache_valid_iff (catalogIds : List String) (c : CacheState)
    (computed : List (List ℚ)) :
    ((loadCache catalogIds c).isSome ↔
      ∃ ids embs, c.idsFile = some ids ∧ c.embFile = some embs ∧
        ids = catalogIds ∧ embs.length = catalogIds.length) ∧
    initEmbeddings catalogIds c computed = (loadCache catalogIds c).getD computed := by
  constructor
  · rcases c with ⟨ids?, embs?⟩
    cases ids? with
    | none => simp [loadCache]
    | some ids =>
      cases embs? with
      | none => simp [loadCache]
      | some embs =>
        simp only [loadCache]
        by_cases hlen : ids.length = catalogIds.length ∧ embs.length = catalogIds.length
        · rw [if_pos hlen]
          by_cases heq : catalogIds = ids
          · rw [if_pos heq]
            simp only [Option.isSome_some, true_iff]
            exact ⟨ids, embs, rfl, rfl, heq.symm, hlen.2⟩
          · rw [if_neg heq]
            simp only [Option.isSome_none, Bool.false_eq_true, false_iff]
            rintro ⟨ids2, embs2, h1, h2, h3, h4⟩
            cases h1; cases h2
            exact heq h3.symm
        · rw [if_neg hlen]
          simp only [Option.isSome_none, Bool.false_eq_true, false_iff]
          rintro ⟨ids2, embs2, h1, h2, h3, h4⟩
          cases h1; cases h2
          exact hlen ⟨by rw [h3], h4⟩
  · unfold initEmbeddings
    cases loadCache catalogIds c <;> rfl

/-! ### Lemmas about `add_unique` -/

/-- Number of distinct dedup keys among the indices of `pool` whose key
is not already in `seen`. -/
def newKeyCount (df : List Entry) (seen : List (String × String))
    (pool : List Nat) : Nat :=
  ((pool.map (dedupKeyAt df)).filter (fun kk => decide (kk ∉ seen))).toFinset.card

/-- Number of distinct dedup keys among a list of candidate indices. -/
def distinctKeyCount (df : List Entry) (cand : List Nat) : Nat :=
  ((cand.map (dedupKeyAt df)).toFinset.card)

theorem newKeyCount_nil_seen (df : List Entry) (pool : List Nat) :
    newKeyCount df [] pool = distinctKeyCount df pool := by
  unfold newKeyCount distinctKeyCount
  congr 1
  rw [List.filter_eq_self.mpr]
  intro a _
  simp

theorem addUniqueGo_subset (df : List Entry) (top_k : Nat) :
    ∀ (pool : List Nat) (seen : List (String × String)) (out : List Nat)
      (x : Nat), x ∈ addUniqueGo df top_k seen out pool → x ∈ out ∨ x ∈ pool := by
  intro pool
  induction pool with
  | nil => intro seen out x h; exact Or.inl (by simpa [addUniqueGo] using h)
  | cons i rest ih =>
    intro seen out x h
    simp only [addUniqueGo] at h
    by_cases hk : top_k ≤ out.length
    · rw [if_pos hk] at h
      exact Or.inl h
    · rw [if_neg hk] at h
      by_cases hseen : dedupKeyAt df i ∈ seen
      · rw [if_pos hseen] at h
        rcases ih seen out x h with h1 | h1
        · exact Or.inl h1
        · exact Or.inr (List.mem_cons_of_mem _ h1)
      · rw [if_neg hseen] at h
        rcases ih _ _ x h with h1 | h1
        · rcases List.mem_append.mp h1 with h2 | h2
          · exact Or.inl h2
          · exact Or.inr (by simpa using Or.inl (List.mem_singleton.mp h2))
        · exact Or.inr (List.mem_cons_of_mem _ h1)

theorem addUniqueGo_length_le (df : List Entry) (top_k : Nat) :
    ∀ (pool : List Nat) (seen : List (String × String)) (out : List Nat),
      (addUniqueGo df top_k seen out pool).length ≤ max out.length top_k := by
  intro pool
  induction pool with
  | nil => intro seen out; simp [addUniqueGo]
  | cons i rest ih =>
    intro seen out
    simp only [addUniqueGo]
    by_cases hk : top_k ≤ out.length
    · rw [if_pos hk]; exact Nat.le_max_left _ _
    · rw [if_neg hk]
      by_cases hseen : dedupKeyAt df i ∈ seen
      · rw [if_pos hseen]; exact ih seen out
      · rw [if_neg hseen]
        have := ih (dedupKeyAt df i :: seen) (out ++ [i])
        have hlen : (out ++ [i]).length = out.length + 1 := by simp
        rw [hlen] at this
        omega

theorem addUniqueGo_length_ge (df : List Entry) (top_k : Nat) :
    ∀ (pool : List Nat) (seen : List (String × String)) (out : List Nat),
      out.length ≤ top_k →
      min top_k (out.length + newKeyCount df seen pool) ≤
        (addUniqueGo df top_k seen out pool).length := by
  intro pool
  induction pool with
  | nil =>
    intro seen out hle
    simp only [addUniqueGo, newKeyCount, List.map_nil, List.filter_nil,
      List.toFinset_nil, Finset.card_empty]
    omega
  | cons i rest ih =>
    intro seen out hle
    simp only [addUniqueGo]
    by_cases hk : top_k ≤ out.length
    · rw [if_pos hk]
      omega
    · rw [if_neg hk]
      by_cases hseen : dedupKeyAt df i ∈ seen
      · rw [if_pos hseen]
        have hkeys : newKeyCount df seen (i :: rest) = newKeyCount df seen rest := by
          unfold newKeyCount
          rw [List.map_cons, List.filter_cons]
          rw [decide_eq_false (not_not_intro hseen)]
          simp
        rw [hkeys]
        exact ih seen out hle
      · rw [if_neg hseen]
        have hout1 : (out ++ [i]).length = out.length + 1 := by simp
        have ihx := ih (dedupKeyAt df i :: seen) (out ++ [i]) (by omega)
        rw [hout1] at ihx
        have hkeys : newKeyCount df seen (i :: rest) =
            newKeyCount df (dedupKeyAt df i :: seen) rest + 1 := by
          unfold newKeyCount
          rw [List.map_cons, List.filter_cons, decide_eq_true hseen]
          simp only [if_true]
          rw [List.toFinset_cons]
          have herase : ((rest.map (dedupKeyAt df)).filter
              (fun kk => decide (kk ∉ dedupKeyAt df i :: seen))).toFinset =
            (((rest.map (dedupKeyAt df)).filter
              (fun kk => decide (kk ∉ seen))).toFinset).erase (dedupKeyAt df i) := by
            ext a
            simp only [List.mem_toFinset, List.mem_filter, Finset.mem_erase,
              List.mem_cons, decide_eq_true_eq]
            tauto
          rw [herase]
          have hins : insert (dedupKeyAt df i)
              (((rest.map (dedupKeyAt df)).filter
                (fun kk => decide (kk ∉ seen))).toFinset) =
            insert (dedupKeyAt df i)
              ((((rest.map (dedupKeyAt df)).filter
                (fun kk => decide (kk ∉ seen))).toFinset).erase (dedupKeyAt df i)) := by
            ext a
            simp only [Finset.mem_insert, Finset.mem_erase]
            constructor
            · rintro (h | h)
              · exact Or.inl h
              · by_cases ha : a = dedupKeyAt df i
                · exact Or.inl ha
                · exact Or.inr ⟨ha, h⟩
            · rintro (h | h)
              · exact Or.inl h
              · exact Or.inr h.2
          rw [hins, Finset.card_insert_of_not_mem (Finset.not_mem_erase _ _)]
        rw [hkeys]
        omega

theorem addUniqueGo_keys_nodup (df : List Entry) (top_k : Nat) :
    ∀ (pool : List Nat) (seen : List (String × String)) (out : List Nat),
      (out.map (dedupKeyAt df)).Nodup →
      (∀ kk ∈ out.map (dedupKeyAt df), kk ∈ seen) →
      ((addUniqueGo df top_k seen out pool).map (dedupKeyAt df)).Nodup := by
  intro pool
  induction pool with
  | nil => intro seen out h1 _; simpa [addUniqueGo] using h1
  | cons i rest ih =>
    intro seen out h1 h2
    simp only [addUniqueGo]
    by_cases hk : top_k ≤ out.length
    · rw [if_pos hk]; exact h1
    · rw [if_neg hk]
      by_cases hseen : dedupKeyAt df i ∈ seen
      · rw [if_pos hseen]; exact ih seen out h1 h2
      · rw [if_neg hseen]
        apply ih (dedupKeyAt df i :: seen) (out ++ [i])
        · rw [List.map_append, List.map_singleton]
          apply List.Nodup.append h1 (List.nodup_singleton _)
          intro a ha hb
          rw [List.mem_singleton] at hb
          subst hb
          exact hseen (h2 _ ha)
        · intro kk hkk
          rw [List.map_append, List.map_singleton, List.mem_append] at hkk
          rcases hkk with hkk | hkk
          · exact List.mem_cons_of_mem _ (h2 _ hkk)
          · rw [List.mem_singleton] at hkk
            subst hkk
            exact List.mem_cons_self _ _

theorem addUnique_keys_nodup (df : List Entry) (top_k : Nat)
    (seed pool : List Nat) (h : (seed.map (dedupKeyAt df)).Nodup) :
    ((addUnique df top_k seed pool).map (dedupKeyAt df)).Nodup := by
  unfold addUnique
  exact addUniqueGo_keys_nodup df top_k pool _ seed h (fun kk hkk => hkk)

/-! ### C1: minimum-unique override -/

/-- Concrete two-entry catalog with distinct dedup keys, used for the
minimum-unique override analysis. -/
def exDfA : List Entry :=
  [⟨"a", "Red Shirt", "", "t-shirt", "Acme", 25, "USD", "", ""⟩,
   ⟨"b", "Blue Hoodie", "", "hoodie", "Bravo", 30, "USD", "", ""⟩]

/-- A brand constraint that no entry of `exDfA` satisfies. -/
def exBrandNike : FilterSpec := { brand := some "Nike" }

/-- C1 counterexample: with `top_k = 1` (a reachable request value, since
the chat handler passes the unclamped `req.top_k` to the pipeline), all
stages empty and a candidate pool holding 2 distinct dedup keys, the
override still returns fewer than `min_unique = 2` results, because the
rebuild is capped at `top_k` during construction. -/
theorem min_unique_override_counterexample :
    (pickWithFilters exDfA exBrandNike 1 2 [(0, 3), (1, 2)]).length < 2 ∧
    2 ≤ distinctKeyCount exDfA ([(0, (3 : ℚ)), (1, 2)].map Prod.fst) := by
  decide

/-- C1 amended: when `top_k ≥ min_unique`, if the staged result is shorter
than `min_unique` and the candidate pool has at least `min_unique`
distinct dedup keys, the pipeline discards the staged result, rebuilds
from the raw pool using only the dedup rule (capped at `top_k`, which
subsumes the `max(min_unique, top_k)` truncation), and returns at least
`min_unique` entries. -/
theorem min_unique_override (df : List Entry) (f : FilterSpec)
    (top_k mu : Nat) (scored : List (Nat × ℚ))
    (hmu : mu ≤ top_k)
    (hshort : (pickStages df f top_k (scored.map Prod.fst)).length < mu)
    (hkeys : mu ≤ distinctKeyCount df (scored.map Prod.fst)) :
    pickWithFilters df f top_k mu scored =
      addUnique df top_k [] (scored.map Prod.fst) ∧
    mu ≤ (pickWithFilters df f top_k mu scored).length := by
  have hcand : mu ≤ (scored.map Prod.fst).length := by
    have h1 : distinctKeyCount df (scored.map Prod.fst) ≤
        ((scored.map Prod.fst).map (dedupKeyAt df)).length :=
      List.toFinset_card_le _
    rw [List.length_map] at h1
    omega
  have hcond : (pickStages df f top_k (scored.map Prod.fst)).length < mu ∧
      mu ≤ (scored.map Prod.fst).length := ⟨hshort, hcand⟩
  have hlenle : (addUnique df top_k [] (scored.map Prod.fst)).length ≤ top_k := by
    have := addUniqueGo_length_le df top_k (scored.map Prod.fst) [] []
    simpa [addUnique] using this
  have heq : pickWithFilters df f top_k mu scored =
      addUnique df top_k [] (scored.map Prod.fst) := by
    unfold pickWithFilters
    rw [if_pos hcond]
    have hmax : max mu top_k = top_k := Nat.max_eq_right hmu
    rw [hmax]
    exact List.take_of_length_le hlenle
  refine ⟨heq, ?_⟩
  rw [heq]
  have hge := addUniqueGo_length_ge df top_k (scored.map Prod.fst) [] []
    (by simp)
  have hnew : newKeyCount df [] (scored.map Prod.fst) =
      distinctKeyCount df (scored.map Prod.fst) :=
    newKeyCount_nil_seen df _
  simp only [List.length_nil, Nat.zero_add, hnew] at hge
  unfold addUnique
  simp only [List.map_nil]
  omega

theorem min_unique_override_witness :
    (2 ≤ 3 ∧
      (pickStages exDfA exBrandNike 3 ([(0, (3 : ℚ)), (1, 2)].map Prod.fst)).length < 2 ∧
      2 ≤ distinctKeyCount exDfA ([(0, (3 : ℚ)), (1, 2)].map Prod.fst)) ∧
    (pickWithFilters exDfA exBrandNike 3 2 [(0, 3), (1, 2)] =
      addUnique exDfA 3 [] ([(0, (3 : ℚ)), (1, 2)].map Prod.fst) ∧
    2 ≤ (pickWithFilters exDfA exBrandNike 3 2 [(0, 3), (1, 2)]).length) :=
  ⟨⟨by decide, by decide, by decide⟩,
    min_unique_override exDfA exBrandNike 3 2 [(0, 3), (1, 2)]
      (by decide) (by decide) (by decide)⟩

/-! ### C2: category never relaxed across -/

theorem mem_applyFilters_iff (df : List Entry) (f : FilterSpec) (e : Entry) :
    e ∈ applyFilters df f ↔ e ∈ df ∧ matchesFilters f e = true := by
  unfold applyFilters matchesFilters
  rcases f with ⟨b, c, pmin, pmax, t⟩
  dsimp only
  cases pmin <;> cases pmax <;>
    by_cases hb : optStrSet b = true <;>
    by_cases hc : optStrSet c = true <;>
    by_cases ht : optStrSet t = true <;>
    simp [hb, hc, ht, List.mem_filter, Bool.and_eq_true, decide_eq_true_eq,
      and_assoc] <;>
    tauto

theorem addUnique_subset (df : List Entry) (top_k : Nat) (seed pool : List Nat)
    (x : Nat) (h : x ∈ addUnique df top_k seed pool) : x ∈ seed ∨ x ∈ pool :=
  addUniqueGo_subset df top_k pool _ seed x h

/-- C2: with a category constraint set, every entry chosen by the
relaxation stages (everything outside the minimum-unique override)
category-matches the constraint; the unconstrained stage 3 is skipped;
and the full pipeline result is either this staged list or the
override rebuild. -/
theorem category_never_relaxed (df : List Entry) (f : FilterSpec)
    (top_k : Nat) (cand_idxs : List Nat)
    (hcat : optStrSet f.category = true)
    (hids : (df.map Entry.id).Nodup)
    (hvalid : ∀ i ∈ cand_idxs, i < df.length) :
    (∀ i ∈ pickStages df f top_k cand_idxs,
      substrB (lowerStr (f.category.getD ""))
        (lowerStr (df.getD i default).category) = true) ∧
    pickStages df f top_k cand_idxs =
      pickStage2 df f top_k cand_idxs (pickStage1 df f top_k cand_idxs) ∧
    (∀ (mu : Nat) (scored : List (Nat × ℚ)),
      pickWithFilters df f top_k mu scored =
        pickStages df f top_k (scored.map Prod.fst) ∨
      pickWithFilters df f top_k mu scored =
        (addUnique df top_k [] (scored.map Prod.fst)).take (max mu top_k)) := by
  have hstage3 : ∀ chosen, pickStage3 df f top_k cand_idxs chosen = chosen := by
    intro chosen
    unfold pickStage3
    rw [if_neg]
    rintro ⟨_, hno⟩
    exact hno hcat
  have hstage1 : ∀ i ∈ pickStage1 df f top_k cand_idxs,
      substrB (lowerStr (f.category.getD ""))
        (lowerStr (df.getD i default).category) = true := by
    intro i hi
    unfold pickStage1 at hi
    rcases addUnique_subset df top_k [] _ i hi with h | h
    · simp at h
    · rw [List.mem_filter] at h
      rcases h with ⟨hicand, hid⟩
      rw [decide_eq_true_eq] at hid
      rcases List.mem_map.mp hid with ⟨e, he, heid⟩
      rcases (mem_applyFilters_iff df f e).mp he with ⟨hedf, hematch⟩
      have hilt : i < df.length := hvalid i hicand
      have hie : df.getD i default ∈ df := by
        rw [List.getD_eq_getElem df default hilt]
        exact List.getElem_mem hilt
      have heq : e = df.getD i default :=
        List.inj_on_of_nodup_map hids hedf hie heid
      rw [heq] at hematch
      simp only [matchesFilters, Bool.and_eq_true] at hematch
      have hcatcond := hematch.1.1.1.2
      rw [if_pos hcat] at hcatcond
      simpa [strContainsCI] using hcatcond
  refine ⟨?_, ?_, ?_⟩
  · intro i hi
    unfold pickStages at hi
    rw [hstage3] at hi
    unfold pickStage2 at hi
    split at hi
    · rcases addUnique_subset df top_k _ _ i hi with h | h
      · exact hstage1 i h
      · rw [List.mem_filter] at h
        rcases h with ⟨_, hprop⟩
        rw [Bool.and_eq_true, Bool.and_eq_true] at hprop
        exact hprop.1.2
    · exact hstage1 i hi
  · unfold pickStages
    rw [hstage3]
  · intro mu scored
    unfold pickWithFilters
    by_cases hcond : (pickStages df f top_k (scored.map Prod.fst)).length < mu ∧
        mu ≤ (scored.map Prod.fst).length
    · rw [if_pos hcond]
      exact Or.inr rfl
    · rw [if_neg hcond]
      exact Or.inl rfl

theorem category_never_relaxed_witness :
    (optStrSet ({ category := some "t-shirt" } : FilterSpec).category = true ∧
      ((exDfA.map Entry.id).Nodup) ∧ (∀ i ∈ [0, 1], i < exDfA.length)) ∧
    (∀ i ∈ pickStages exDfA { category := some "t-shirt" } 5 [0, 1],
      substrB (lowerStr (({ category := some "t-shirt" } : FilterSpec).category.getD ""))
        (lowerStr (exDfA.getD i default).category) = true) :=
  ⟨⟨by decide, by decide, by decide⟩,
    (category_never_relaxed exDfA { category := some "t-shirt" } 5 [0, 1]
      (by decide) (by decide) (by decide)).1⟩

/-! ### C3: fallback triggers only on true emptiness -/

theorem stableSortDesc_length (l : List (Nat × ℚ)) :
    (stableSortDesc l).length = l.length := by
  unfold stableSortDesc
  rw [List.length_map, (List.perm_insertionSort rLex _).length_eq,
    List.enum_length]

/-- Concrete one-entry catalog used for the fallback analysis. -/
def exDfB : List Entry :=
  [⟨"a", "Red Shirt", "cotton tee", "t-shirt", "Acme", 25, "USD", "", "shirt"⟩]

/-- C3 counterexample: a brand constraint that eliminates every candidate,
a non-empty catalog, and a query token overlapping the only entry's
title — yet the fallback returns nothing, because when any constraint is
set the scorer runs over the constraint-pre-filtered pool even when that
pool is empty (it does not fall back to the full catalog). -/
theorem fallback_empty_prefilter_counterexample :
    keywordFallback exDfB { brand := some "Nike" } "shirt" 5 = [] ∧
    (∃ t ∈ (kwTokens "shirt").dedup,
      substrB t (lowerStr (exDfB.getD 0 default).title) = true) ∧
    exDfB ≠ [] := by
  refine ⟨by decide, ⟨"shirt", by decide, by decide⟩, by decide⟩

/-- C3 amended: the fallback pool is the constraint-pre-filtered catalog
when any constraint field is set (even if that pool is empty), otherwise
the full catalog; the fallback returns at least one item whenever some
entry of that pool has a query-token overlap with its tags, title or
description (prices are non-negative per the data model, topK ≥ 1). -/
theorem fallback_nonempty (df : List Entry) (f : FilterSpec) (text : String)
    (top_k : Nat)
    (htop : 1 ≤ top_k)
    (hprice : ∀ e ∈ df, 0 ≤ e.price)
    (hover : ∃ i ∈ kwPool df f, ∃ t ∈ (kwTokens text).dedup, (t == "") = false ∧
      (substrB t (lowerStr (df.getD i default).tags) = true ∨
       substrB t (lowerStr (df.getD i default).title) = true ∨
       substrB t (lowerStr (df.getD i default).description) = true)) :
    keywordFallback df f text top_k ≠ [] := by
  rcases hover with ⟨i, hipool, t, htok, htne, hhit⟩
  have hilt : i < df.length := by
    unfold kwPool at hipool
    by_cases hany : anyFilterSet f = true
    · rw [if_pos hany] at hipool
      exact List.mem_range.mp (List.mem_filter.mp hipool).1
    · rw [if_neg hany] at hipool
      exact List.mem_range.mp hipool
  have hrmem : df.getD i default ∈ df := by
    rw [List.getD_eq_getElem df default hilt]
    exact List.getElem_mem hilt
  have hpricei : 0 ≤ (df.getD i default).price := hprice _ hrmem
  -- the base keyword score is at least 1
  have hbase : 1 ≤ kwBase (lowerStr text) ((kwTokens text).dedup) (df.getD i default) := by
    unfold kwBase
    have hb0 : (0 : ℚ) ≤ (if !(lowerStr (df.getD i default).brand == "") &&
        substrB (lowerStr (df.getD i default).brand) (lowerStr text) then 5 else 0) := by
      split <;> norm_num
    have hc1 : (0 : ℚ) ≤ ((((kwTokens text).dedup).filter
        (fun t => !(t == "") && substrB t (lowerStr (df.getD i default).tags))).length : ℚ) := by
      positivity
    have hc2 : (0 : ℚ) ≤ ((((kwTokens text).dedup).filter
        (fun t => !(t == "") && (substrB t (lowerStr (df.getD i default).title) ||
          substrB t (lowerStr (df.getD i default).description)))).length : ℚ) := by
      positivity
    rcases hhit with hh | hh
    · have hmem : t ∈ ((kwTokens text).dedup).filter
          (fun t => !(t == "") && substrB t (lowerStr (df.getD i default).tags)) :=
        List.mem_filter.mpr ⟨htok, by rw [Bool.and_eq_true, htne]; exact ⟨rfl, hh⟩⟩
      have hlen : 1 ≤ (((kwTokens text).dedup).filter
          (fun t => !(t == "") && substrB t (lowerStr (df.getD i default).tags))).length :=
        List.length_pos.mpr (List.ne_nil_of_mem hmem)
      have hlenq : (1 : ℚ) ≤ (((kwTokens text).dedup).filter
          (fun t => !(t == "") && substrB t (lowerStr (df.getD i default).tags))).length := by
        exact_mod_cast hlen
      linarith
    · have hmem : t ∈ ((kwTokens text).dedup).filter
          (fun t => !(t == "") && (substrB t (lowerStr (df.getD i default).title) ||
            substrB t (lowerStr (df.getD i default).description))) := by
        refine List.mem_filter.mpr ⟨htok, ?_⟩
        rw [Bool.and_eq_true, Bool.or_eq_true, htne]
        exact ⟨rfl, hh⟩
      have hlen : 1 ≤ (((kwTokens text).dedup).filter
          (fun t => !(t == "") && (substrB t (lowerStr (df.getD i default).title) ||
            substrB t (lowerStr (df.getD i default).description)))).length :=
        List.length_pos.mpr (List.ne_nil_of_mem hmem)
      have hlenq : (1 : ℚ) ≤ (((kwTokens text).dedup).filter
          (fun t => !(t == "") && (substrB t (lowerStr (df.getD i default).title) ||
            substrB t (lowerStr (df.getD i default).description)))).length := by
        exact_mod_cast hlen
      linarith
  -- neither the price guards nor the category guard rejects the entry
  have hguards : (match f.price_min with
      | some m => decide ((df.getD i default).price < m)
      | none => false) = false ∧
      (match f.price_max with
      | some m => decide (m < (df.getD i default).price)
      | none => false) = false ∧
      (optStrSet f.category &&
        !(substrB (lowerStr (f.category.getD ""))
          (lowerStr (df.getD i default).category))) = false := by
    by_cases hany : anyFilterSet f = true
    · unfold kwPool at hipool
      rw [if_pos hany] at hipool
      have hm := (List.mem_filter.mp hipool).2
      simp only [matchesFilters, Bool.and_eq_true] at hm
      obtain ⟨⟨⟨⟨_, hc⟩, hp1⟩, hp2⟩, _⟩ := hm
      refine ⟨?_, ?_, ?_⟩
      · cases hpm : f.price_min with
        | none => rfl
        | some m =>
          rw [hpm] at hp1
          rw [decide_eq_true_eq] at hp1
          exact decide_eq_false (not_lt.mpr hp1)
      · cases hpm : f.price_max with
        | none => rfl
        | some m =>
          rw [hpm] at hp2
          rw [decide_eq_true_eq] at hp2
          exact decide_eq_false (not_lt.mpr hp2)
      · by_cases hcs : optStrSet f.category = true
        · rw [if_pos hcs] at hc
          unfold strContainsCI at hc
          rw [hcs, hc]
          rfl
        · rw [Bool.not_eq_true] at hcs
          rw [hcs]
          rfl
    · rw [Bool.not_eq_true] at hany
      unfold anyFilterSet at hany
      simp only [Bool.or_eq_false_iff] at hany
      obtain ⟨⟨⟨⟨_, hc⟩, hp1⟩, hp2⟩, _⟩ := hany
      refine ⟨?_, ?_, ?_⟩
      · cases hpm : f.price_min with
        | none => rfl
        | some m => rw [hpm] at hp1; simp at hp1
      · cases hpm : f.price_max with
        | none => rfl
        | some m => rw [hpm] at hp2; simp at hp2
      · rw [hc]; rfl
  -- the scoring loop keeps the entry with a positive score
  have hrow : ∃ s, kwRow df f (lowerStr text) ((kwTokens text).dedup) i = some (i, s) := by
    simp only [kwRow]
    rw [hguards.1, hguards.2.1]
    simp only [Bool.false_eq_true, if_false]
    rw [hguards.2.2]
    simp only [Bool.false_eq_true, if_false]
    have hbonus : (0 : ℚ) ≤ (match f.price_max with
        | some mx => (mkRat 3 2) * ((df.getD i default).price / max mx (mkRat 1 1000000))
        | none => 0) := by
      cases f.price_max with
      | none => norm_num
      | some mx =>
        have h32 : (0 : ℚ) ≤ mkRat 3 2 := by decide
        have heps : (0 : ℚ) < mkRat 1 1000000 := by decide
        have hmax : (0 : ℚ) < max mx (mkRat 1 1000000) :=
          lt_of_lt_of_le heps (le_max_right _ _)
        exact mul_nonneg h32 (div_nonneg hpricei (le_of_lt hmax))
    rw [if_pos (by linarith : (0 : ℚ) < kwBase (lowerStr text) ((kwTokens text).dedup)
      (df.getD i default) + (match f.price_max with
        | some mx => (mkRat 3 2) * ((df.getD i default).price / max mx (mkRat 1 1000000))
        | none => 0))]
    exact ⟨_, rfl⟩
  rcases hrow with ⟨s, hs⟩
  have hmemsc : (i, s) ∈ (kwPool df f).filterMap
      (kwRow df f (lowerStr text) ((kwTokens text).dedup)) :=
    List.mem_filterMap.mpr ⟨i, hipool, hs⟩
  have hlenp : 1 ≤ ((kwPool df f).filterMap
      (kwRow df f (lowerStr text) ((kwTokens text).dedup))).length :=
    List.length_pos.mpr (List.ne_nil_of_mem hmemsc)
  intro hcontra
  have hlen : (keywordFallback df f text top_k).length =
      min top_k ((kwPool df f).filterMap
        (kwRow df f (lowerStr text) ((kwTokens text).dedup))).length := by
    unfold keywordFallback
    rw [List.length_map, List.length_take, stableSortDesc_length]
  rw [hcontra] at hlen
  simp only [List.length_nil] at hlen
  omega

theorem fallback_nonempty_witness :
    ((1 : Nat) ≤ 5 ∧ (∀ e ∈ exDfB, 0 ≤ e.price) ∧
      (∃ i ∈ kwPool exDfB {}, ∃ t ∈ (kwTokens "shirt").dedup, (t == "") = false ∧
        (substrB t (lowerStr (exDfB.getD i default).tags) = true ∨
         substrB t (lowerStr (exDfB.getD i default).title) = true ∨
         substrB t (lowerStr (exDfB.getD i default).description) = true))) ∧
    keywordFallback exDfB {} "shirt" 5 ≠ [] :=
  ⟨⟨by decide, by decide,
      ⟨0, by decide, "shirt", by decide, by decide, Or.inl (by decide)⟩⟩,
    fallback_nonempty exDfB {} "shirt" 5 (by decide) (by decide)
      ⟨0, by decide, "shirt", by decide, by decide, Or.inl (by decide)⟩⟩

/-! ### Lemmas about `argmaxQ` (first position of the maximum) -/

theorem argmaxQ_lt_length : ∀ (l : List ℚ), l ≠ [] → argmaxQ l < l.length := by
  intro l
  induction l with
  | nil => intro h; exact absurd rfl h
  | cons x xs ih =>
    intro _
    cases xs with
    | nil => simp [argmaxQ]
    | cons y ys =>
      simp only [argmaxQ]
      split
      · have := ih (by simp)
        simp only [List.length_cons] at this ⊢
        omega
      · simp

theorem argmaxQ_is_max : ∀ (l : List ℚ) (i : Nat), i < l.length →
    l.getD i 0 ≤ l.getD (argmaxQ l) 0 := by
  intro l
  induction l with
  | nil => intro i h; simp at h
  | cons x xs ih =>
    intro i hi
    cases xs with
    | nil =>
      cases i with
      | zero => simp [argmaxQ]
      | succ j =>
        simp only [List.length_cons, List.length_nil] at hi
        omega
    | cons y ys =>
      simp only [argmaxQ]
      split
      · rename_i hx
        rw [List.getD_cons_succ]
        cases i with
        | zero => rw [List.getD_cons_zero]; exact le_of_lt hx
        | succ j =>
          rw [List.getD_cons_succ]
          exact ih j (by simpa using hi)
      · rename_i hx
        rw [not_lt] at hx
        rw [List.getD_cons_zero]
        cases i with
        | zero => rw [List.getD_cons_zero]
        | succ j =>
          rw [List.getD_cons_succ]
          exact le_trans (ih j (by simpa using hi)) hx

theorem argmaxQ_first : ∀ (l : List ℚ) (i : Nat), i < argmaxQ l →
    l.getD i 0 < l.getD (argmaxQ l) 0 := by
  intro l
  induction l with
  | nil => intro i h; simp [argmaxQ] at h
  | cons x xs ih =>
    intro i hi
    cases xs with
    | nil => simp [argmaxQ] at hi
    | cons y ys =>
      simp only [argmaxQ] at hi ⊢
      by_cases hx : x < (y :: ys).getD (argmaxQ (y :: ys)) 0
      · rw [if_pos hx] at hi ⊢
        rw [List.getD_cons_succ]
        cases i with
        | zero => rw [List.getD_cons_zero]; exact hx
        | succ j =>
          rw [List.getD_cons_succ]
          exact ih j (by omega)
      · rw [if_neg hx] at hi
        omega

/-! ### Bounds for the MMR score vector -/

theorem foldl_max_le (c : ℚ) : ∀ (xs : List ℚ) (acc : ℚ), acc ≤ c →
    (∀ x ∈ xs, x ≤ c) → xs.foldl max acc ≤ c := by
  intro xs
  induction xs with
  | nil => intro acc hacc _; simpa using hacc
  | cons x xs ih =>
    intro acc hacc hall
    simp only [List.foldl_cons]
    exact ih (max acc x) (max_le hacc (hall x (List.mem_cons_self _ _)))
      (fun z hz => hall z (List.mem_cons_of_mem _ hz))

theorem maxListQ_le (c : ℚ) (hc : 0 ≤ c) (l : List ℚ)
    (h : ∀ x ∈ l, x ≤ c) : maxListQ l ≤ c := by
  cases l with
  | nil => simpa [maxListQ] using hc
  | cons x xs =>
    simp only [maxListQ]
    exact foldl_max_le c xs x (h x (List.mem_cons_self _ _))
      (fun z hz => h z (List.mem_cons_of_mem _ hz))

theorem mmrPenalty_le_one (sI : Nat → Nat → ℚ) (n : Nat) (sel : List Nat)
    (i : Nat) (hi : i < n)
    (hsel : ∀ j ∈ sel, j < n)
    (hsi : ∀ a, a < n → ∀ b, b < n → sI a b ≤ 1) :
    mmrPenalty sI sel i ≤ 1 := by
  unfold mmrPenalty
  apply maxListQ_le 1 (by norm_num)
  intro x hx
  rcases List.mem_map.mp hx with ⟨j, hj, hxj⟩
  rw [← hxj]
  exact hsi i hi j (hsel j hj)

theorem mmrScoreList_length (n : Nat) (sQ : Nat → ℚ) (sI : Nat → Nat → ℚ)
    (d : ℚ) (sel : List Nat) : (mmrScoreList n sQ sI d sel).length = n := by
  simp [mmrScoreList]

theorem mmrScoreList_getD (n : Nat) (sQ : Nat → ℚ) (sI : Nat → Nat → ℚ)
    (d : ℚ) (sel : List Nat) (i : Nat) (hi : i < n) :
    (mmrScoreList n sQ sI d sel).getD i 0 =
      if i ∈ sel then -(10 ^ 9 : ℚ)
      else d * sQ i - (1 - d) * mmrPenalty sI sel i := by
  unfold mmrScoreList
  rw [List.getD_eq_getElem _ _ (by simpa using hi)]
  simp [hi]

theorem rangeMap_getD (n : Nat) (sQ : Nat → ℚ) (i : Nat) (hi : i < n) :
    ((List.range n).map sQ).getD i 0 = sQ i := by
  rw [List.getD_eq_getElem _ _ (by simpa using hi)]
  simp

/-! ### The MMR selection loop -/

theorem mmrPick_lt (n : Nat) (sQ : Nat → ℚ) (sI : Nat → Nat → ℚ) (d : ℚ)
    (sel : List Nat) (hn : 0 < n) : mmrPick n sQ sI d sel < n := by
  cases sel with
  | nil =>
    have hne : (List.range n).map sQ ≠ [] := by
      rw [← List.length_pos, List.length_map, List.length_range]
      exact hn
    have h := argmaxQ_lt_length _ hne
    rw [List.length_map, List.length_range] at h
    simpa [mmrPick] using h
  | cons s rest =>
    have hne : mmrScoreList n sQ sI d (s :: rest) ≠ [] := by
      rw [← List.length_pos, mmrScoreList_length]; exact hn
    have h := argmaxQ_lt_length _ hne
    rw [mmrScoreList_length] at h
    simpa [mmrPick] using h

theorem mmrPick_not_mem (n : Nat) (sQ : Nat → ℚ) (sI : Nat → Nat → ℚ) (d : ℚ)
    (sel : List Nat)
    (hd0 : 0 ≤ d) (hd1 : d ≤ 1)
    (hsq : ∀ i, i < n → -1 ≤ sQ i)
    (hsi : ∀ a, a < n → ∀ b, b < n → sI a b ≤ 1)
    (hsel : ∀ j ∈ sel, j < n) (hlen : sel.length < n) (hnodup : sel.Nodup) :
    mmrPick n sQ sI d sel ∉ sel := by
  cases sel with
  | nil => simp
  | cons s rest =>
    have hn : 0 < n := by omega
    -- there is an unselected position
    have hex : ∃ i0, i0 < n ∧ i0 ∉ (s :: rest) := by
      by_contra hno
      push_neg at hno
      have hsub : List.range n ⊆ s :: rest := by
        intro a ha
        exact hno a (List.mem_range.mp ha)
      have := (List.subperm_of_subset (List.nodup_range n) hsub).length_le
      simp only [List.length_range, List.length_cons] at this
      simp only [List.length_cons] at hlen
      omega
    rcases hex with ⟨i0, hi0lt, hi0not⟩
    set L := mmrScoreList n sQ sI d (s :: rest) with hL
    have hLne : L ≠ [] := by
      rw [hL, ← List.length_pos, mmrScoreList_length]; exact hn
    have hargmax : argmaxQ L < n := by
      have := argmaxQ_lt_length L hLne
      rwa [hL, mmrScoreList_length] at this
    have hlow : -1 ≤ L.getD i0 0 := by
      rw [hL, mmrScoreList_getD n sQ sI d _ i0 hi0lt, if_neg hi0not]
      have h1 : d * (-1) ≤ d * sQ i0 :=
        mul_le_mul_of_nonneg_left (hsq i0 hi0lt) hd0
      have h2 : mmrPenalty sI (s :: rest) i0 ≤ 1 :=
        mmrPenalty_le_one sI n (s :: rest) i0 hi0lt hsel hsi
      have h3 : (1 - d) * mmrPenalty sI (s :: rest) i0 ≤ (1 - d) * 1 :=
        mul_le_mul_of_nonneg_left h2 (by linarith)
      nlinarith
    intro hmem
    have hatmax : L.getD (argmaxQ L) 0 = -(10 ^ 9 : ℚ) := by
      have := mmrScoreList_getD n sQ sI d (s :: rest) (argmaxQ L) hargmax
      rw [← hL] at this
      rw [this]
      have hoops : argmaxQ L ∈ s :: rest := by
        simpa [mmrPick] using hmem
      rw [if_pos hoops]
    have hmax := argmaxQ_is_max L i0 (by rw [hL, mmrScoreList_length]; exact hi0lt)
    rw [hatmax] at hmax
    have : (-1 : ℚ) ≤ -(10 ^ 9 : ℚ) := le_trans hlow hmax
    norm_num at this

theorem mmrLoop_invariant (n : Nat) (sQ : Nat → ℚ) (sI : Nat → Nat → ℚ) (d : ℚ)
    (hd0 : 0 ≤ d) (hd1 : d ≤ 1)
    (hsq : ∀ i, i < n → -1 ≤ sQ i)
    (hsi : ∀ a, a < n → ∀ b, b < n → sI a b ≤ 1) :
    ∀ (fuel : Nat) (sel : List Nat),
      sel.length + fuel ≤ n → (∀ j ∈ sel, j < n) → sel.Nodup →
      (mmrLoop n sQ sI d fuel sel).length = sel.length + fuel ∧
      (∀ j ∈ mmrLoop n sQ sI d fuel sel, j < n) ∧
      (mmrLoop n sQ sI d fuel sel).Nodup := by
  intro fuel
  induction fuel with
  | zero =>
    intro sel _ hsel hnodup
    exact ⟨by simp [mmrLoop], by simpa [mmrLoop] using hsel, by simpa [mmrLoop] using hnodup⟩
  | succ m ih =>
    intro sel hfit hsel hnodup
    have hn : 0 < n := by omega
    have hpicklt : mmrPick n sQ sI d sel < n := mmrPick_lt n sQ sI d sel hn
    have hpicknot : mmrPick n sQ sI d sel ∉ sel :=
      mmrPick_not_mem n sQ sI d sel hd0 hd1 hsq hsi hsel (by omega) hnodup
    have hsel2 : ∀ j ∈ sel ++ [mmrPick n sQ sI d sel], j < n := by
      intro j hj
      rcases List.mem_append.mp hj with h | h
      · exact hsel j h
      · rw [List.mem_singleton] at h; subst h; exact hpicklt
    have hnodup2 : (sel ++ [mmrPick n sQ sI d sel]).Nodup := by
      apply List.Nodup.append hnodup (List.nodup_singleton _)
      intro a ha hb
      rw [List.mem_singleton] at hb
      subst hb
      exact hpicknot ha
    have hfit2 : (sel ++ [mmrPick n sQ sI d sel]).length + m ≤ n := by
      simp only [List.length_append, List.length_singleton]
      omega
    have := ih (sel ++ [mmrPick n sQ sI d sel]) hfit2 hsel2 hnodup2
    refine ⟨?_, this.2.1, this.2.2⟩
    simp only [mmrLoop, this.1, List.length_append, List.length_singleton]
    omega

/-- C6: MMR returns exactly `min(topK, |candidates|)` entries; every
returned entry index comes from the candidate list; and if the candidate
list is duplicate-free so is the selection. Score bounds reflect the
data-model invariant that similarities are cosine values in `[-1, 1]`. -/
theorem mmr_cardinality (emb : List (List ℚ)) (cand_idxs : List Nat)
    (cand_scores : List ℚ) (top_k : Nat) (d : ℚ)
    (hd0 : 0 ≤ d) (hd1 : d ≤ 1)
    (hs : ∀ s ∈ cand_scores, -1 ≤ s)
    (hsi : ∀ i, i < cand_idxs.length → ∀ j, j < cand_idxs.length →
      simItemsOf emb cand_idxs i j ≤ 1) :
    (mmr emb cand_idxs cand_scores top_k d).length = min top_k cand_idxs.length ∧
    (∀ x ∈ mmr emb cand_idxs cand_scores top_k d, x ∈ cand_idxs) ∧
    (cand_idxs.Nodup → (mmr emb cand_idxs cand_scores top_k d).Nodup) := by
  have hsq : ∀ i, i < cand_idxs.length → -1 ≤ cand_scores.getD i 0 := by
    intro i _
    by_cases hilt : i < cand_scores.length
    · rw [List.getD_eq_getElem _ _ hilt]
      exact hs _ (List.getElem_mem hilt)
    · rw [List.getD_eq_default _ _ (by omega)]
      norm_num
  have hloop := mmrLoop_invariant cand_idxs.length (fun i => cand_scores.getD i 0)
    (simItemsOf emb cand_idxs) d hd0 hd1 hsq hsi
    (min top_k cand_idxs.length) [] (by simp) (by simp) List.nodup_nil
  rcases hloop with ⟨hlen, hmem, hnodup⟩
  unfold mmr mmrPositions
  refine ⟨?_, ?_, ?_⟩
  · rw [List.length_map, hlen]
    simp
  · intro x hx
    rcases List.mem_map.mp hx with ⟨j, hj, hxj⟩
    have hjlt := hmem j hj
    rw [← hxj, List.getD_eq_getElem _ _ hjlt]
    exact List.getElem_mem hjlt
  · intro hcn
    apply List.Nodup.map_on ?_ hnodup
    intro a ha b hb hab
    have halt := hmem a ha
    have hblt := hmem b hb
    rw [List.getD_eq_getElem _ _ halt, List.getD_eq_getElem _ _ hblt] at hab
    exact (List.Nodup.getElem_inj_iff hcn).mp hab

theorem mmr_cardinality_witness :
    ((0 : ℚ) ≤ 1 ∧ (1 : ℚ) ≤ 1 ∧ (∀ s ∈ [(1 : ℚ), 0], -1 ≤ s) ∧
      (∀ i, i < [0, 1].length → ∀ j, j < [0, 1].length →
        simItemsOf [[1], [0]] [0, 1] i j ≤ 1)) ∧
    ((mmr [[1], [0]] [0, 1] [1, 0] 5 1).length = min 5 [0, 1].length ∧
      (∀ x ∈ mmr [[1], [0]] [0, 1] [1, 0] 5 1, x ∈ [0, 1]) ∧
      ([0, 1].Nodup → (mmr [[1], [0]] [0, 1] [1, 0] 5 1).Nodup)) :=
  ⟨⟨by norm_num, le_refl 1, by decide,
      by
        intro i hi j hj
        simp only [List.length_cons, List.length_nil] at hi hj
        interval_cases i <;> interval_cases j <;> norm_num [simItemsOf, dotQ]⟩,
    mmr_cardinality [[1], [0]] [0, 1] [1, 0] 5 1 (by norm_num) (le_refl 1)
      (by decide)
      (by
        intro i hi j hj
        simp only [List.length_cons, List.length_nil] at hi hj
        interval_cases i <;> interval_cases j <;> norm_num [simItemsOf, dotQ])⟩

/-! ### C7: degenerate diversity weights -/

theorem listMap_getD (l : List Nat) (f : Nat → ℚ) (i : Nat)
    (hi : i < l.length) : (l.map f).getD i 0 = f (l.getD i 0) := by
  rw [List.getD_eq_getElem _ _ (by simpa using hi), List.getD_eq_getElem _ _ hi]
  simp

theorem range_getD (n j : Nat) (hj : j < n) : (List.range n).getD j 0 = j := by
  rw [List.getD_eq_getElem _ _ (by simpa using hj)]
  simp

theorem exists_unselected (n : Nat) (sel : List Nat) (hlen : sel.length < n) :
    ∃ i0, i0 < n ∧ i0 ∉ sel := by
  by_contra hno
  push_neg at hno
  have hsub : List.range n ⊆ sel := by
    intro a ha
    exact hno a (List.mem_range.mp ha)
  have := (List.subperm_of_subset (List.nodup_range n) hsub).length_le
  simp only [List.length_range] at this
  omega

theorem mem_remainingPos (n : Nat) (sel : List Nat) (r : Nat) :
    r ∈ remainingPos n sel ↔ r < n ∧ r ∉ sel := by
  unfold remainingPos
  rw [List.mem_filter, List.mem_range, decide_eq_true_eq]

/-- Masked argmax agrees with the stable argmax over the unselected
positions: selected positions are forced to `-1e9`, and every unselected
value is at least `-1`. -/
theorem maskedArgmax_eq (n : Nat) (f g : Nat → ℚ) (sel : List Nat)
    (hg_un : ∀ i, i < n → i ∉ sel → g i = f i)
    (hg_sel : ∀ i, i < n → i ∈ sel → g i = -(10 ^ 9 : ℚ))
    (hf : ∀ i, i < n → i ∉ sel → -1 ≤ f i)
    (hex : ∃ i0, i0 < n ∧ i0 ∉ sel) :
    argmaxQ ((List.range n).map g) = firstMaxAmong f (remainingPos n sel) := by
  rcases hex with ⟨i0, hi0, hi0n⟩
  have hn : 0 < n := lt_of_le_of_lt (Nat.zero_le _) hi0
  have hGne : (List.range n).map g ≠ [] := by
    rw [← List.length_pos, List.length_map, List.length_range]
    exact hn
  have hjlt : argmaxQ ((List.range n).map g) < n := by
    have := argmaxQ_lt_length _ hGne
    rwa [List.length_map, List.length_range] at this
  have hGget : ∀ i, i < n → ((List.range n).map g).getD i 0 = g i :=
    fun i hi => rangeMap_getD n g i hi
  -- the masked argmax is not a selected position
  have hjns : argmaxQ ((List.range n).map g) ∉ sel := by
    intro hjs
    have h1 := argmaxQ_is_max ((List.range n).map g) i0
      (by rw [List.length_map, List.length_range]; exact hi0)
    rw [hGget i0 hi0, hGget _ hjlt, hg_sel _ hjlt hjs, hg_un i0 hi0 hi0n] at h1
    have h2 := hf i0 hi0 hi0n
    have h3 : (-1 : ℚ) ≤ -(10 ^ 9 : ℚ) := le_trans h2 h1
    norm_num at h3
  have hjR : argmaxQ ((List.range n).map g) ∈ remainingPos n sel :=
    (mem_remainingPos n sel _).mpr ⟨hjlt, hjns⟩
  have hi0R : i0 ∈ remainingPos n sel :=
    (mem_remainingPos n sel i0).mpr ⟨hi0, hi0n⟩
  have hRne : remainingPos n sel ≠ [] := List.ne_nil_of_mem hi0R
  have hRsorted : (remainingPos n sel).Pairwise (· < ·) :=
    List.Pairwise.filter _ (List.pairwise_lt_range n)
  have hRget : ∀ b, b < (remainingPos n sel).length →
      ((remainingPos n sel).map f).getD b 0 = f ((remainingPos n sel).getD b 0) :=
    fun b hb => listMap_getD _ f b hb
  have halt : argmaxQ ((remainingPos n sel).map f) < (remainingPos n sel).length := by
    have := argmaxQ_lt_length ((remainingPos n sel).map f)
      (by rw [← List.length_pos, List.length_map, List.length_pos]; exact hRne)
    rwa [List.length_map] at this
  -- g-argmax is f-maximal over the remaining positions
  have hjmaxf : ∀ r ∈ remainingPos n sel, f r ≤ f (argmaxQ ((List.range n).map g)) := by
    intro r hr
    rcases (mem_remainingPos n sel r).mp hr with ⟨hrn, hrns⟩
    have := argmaxQ_is_max ((List.range n).map g) r
      (by rw [List.length_map, List.length_range]; exact hrn)
    rwa [hGget r hrn, hGget _ hjlt, hg_un r hrn hrns, hg_un _ hjlt hjns] at this
  have hjstrict : ∀ r ∈ remainingPos n sel,
      r < argmaxQ ((List.range n).map g) →
      f r < f (argmaxQ ((List.range n).map g)) := by
    intro r hr hrj
    rcases (mem_remainingPos n sel r).mp hr with ⟨hrn, hrns⟩
    have := argmaxQ_first ((List.range n).map g) r hrj
    rwa [hGget r hrn, hGget _ hjlt, hg_un r hrn hrns, hg_un _ hjlt hjns] at this
  have haRmax : ∀ b, b < (remainingPos n sel).length →
      f ((remainingPos n sel).getD b 0) ≤
      f ((remainingPos n sel).getD (argmaxQ ((remainingPos n sel).map f)) 0) := by
    intro b hb
    have := argmaxQ_is_max ((remainingPos n sel).map f) b
      (by rw [List.length_map]; exact hb)
    rwa [hRget b hb, hRget _ halt] at this
  have haRstrict : ∀ b, b < argmaxQ ((remainingPos n sel).map f) →
      f ((remainingPos n sel).getD b 0) <
      f ((remainingPos n sel).getD (argmaxQ ((remainingPos n sel).map f)) 0) := by
    intro b hb
    have := argmaxQ_first ((remainingPos n sel).map f) b hb
    rwa [hRget b (lt_trans hb halt), hRget _ halt] at this
  obtain ⟨b, hb, hRb⟩ := List.getElem_of_mem hjR
  have hRbD : (remainingPos n sel).getD b 0 = argmaxQ ((List.range n).map g) := by
    rw [List.getD_eq_getElem _ _ hb, hRb]
  have haMem : (remainingPos n sel).getD (argmaxQ ((remainingPos n sel).map f)) 0
      ∈ remainingPos n sel := by
    rw [List.getD_eq_getElem _ _ halt]
    exact List.getElem_mem halt
  unfold firstMaxAmong
  rcases Nat.lt_trichotomy b (argmaxQ ((remainingPos n sel).map f)) with hba | hba | hba
  · exfalso
    have h1 := haRstrict b hba
    rw [hRbD] at h1
    have h2 := hjmaxf _ haMem
    linarith
  · rw [← hba, hRbD]
  · exfalso
    have hlt : (remainingPos n sel).getD (argmaxQ ((remainingPos n sel).map f)) 0 <
        argmaxQ ((List.range n).map g) := by
      rw [List.getD_eq_getElem _ _ halt, ← hRb]
      exact List.pairwise_iff_getElem.mp hRsorted _ _ halt hb hba
    have h1 := hjstrict _ haMem hlt
    have h2 := haRmax b hb
    rw [hRbD] at h2
    linarith

theorem mmrPick_one_eq (n : Nat) (sQ : Nat → ℚ) (sI : Nat → Nat → ℚ)
    (sel : List Nat)
    (hsq : ∀ i, i < n → -1 ≤ sQ i)
    (hsub : ∀ j ∈ sel, j < n) (hlen : sel.length < n) :
    mmrPick n sQ sI 1 sel = relevancePick sQ n sel := by
  cases sel with
  | nil =>
    have hn : 0 < n := by simpa using hlen
    have hrem : remainingPos n [] = List.range n := by
      unfold remainingPos
      rw [List.filter_eq_self.mpr]
      intro a _
      simp
    have hne : (List.range n).map sQ ≠ [] := by
      rw [← List.length_pos, List.length_map, List.length_range]
      exact hn
    have halt := argmaxQ_lt_length _ hne
    rw [List.length_map, List.length_range] at halt
    show argmaxQ ((List.range n).map sQ) = firstMaxAmong sQ (remainingPos n [])
    rw [hrem]
    unfold firstMaxAmong
    rw [range_getD n _ halt]
  | cons s rest =>
    show argmaxQ (mmrScoreList n sQ sI 1 (s :: rest)) =
      firstMaxAmong sQ (remainingPos n (s :: rest))
    unfold mmrScoreList
    apply maskedArgmax_eq n sQ _ (s :: rest)
    · intro i _ hni
      rw [if_neg hni]
      ring
    · intro i _ hyi
      rw [if_pos hyi]
    · intro i hi _
      exact hsq i hi
    · exact exists_unselected n (s :: rest) hlen

theorem mmrPick_zero_cons (n : Nat) (sQ : Nat → ℚ) (sI : Nat → Nat → ℚ)
    (s : Nat) (rest : List Nat)
    (hsub : ∀ j ∈ s :: rest, j < n) (hlen : (s :: rest).length < n)
    (hsi : ∀ a, a < n → ∀ b, b < n → sI a b ≤ 1) :
    mmrPick n sQ sI 0 (s :: rest) = leastSimilarPick sI n (s :: rest) := by
  show argmaxQ (mmrScoreList n sQ sI 0 (s :: rest)) =
    leastSimilarPick sI n (s :: rest)
  unfold mmrScoreList leastSimilarPick firstMinAmong
  apply maskedArgmax_eq n _ _ (s :: rest)
  · intro i _ hni
    rw [if_neg hni]
    ring
  · intro i _ hyi
    rw [if_pos hyi]
  · intro i hi _
    have := mmrPenalty_le_one sI n (s :: rest) i hi hsub hsi
    linarith
  · exact exists_unselected n (s :: rest) hlen

theorem mmrLoop_eq_specLoop (n : Nat) (sQ : Nat → ℚ) (sI : Nat → Nat → ℚ)
    (d : ℚ) (pick : List Nat → Nat)
    (hd0 : 0 ≤ d) (hd1 : d ≤ 1)
    (hsq : ∀ i, i < n → -1 ≤ sQ i)
    (hsi : ∀ a, a < n → ∀ b, b < n → sI a b ≤ 1)
    (hpick : ∀ sel, (∀ j ∈ sel, j < n) → sel.length < n → sel.Nodup →
      mmrPick n sQ sI d sel = pick sel) :
    ∀ (fuel : Nat) (sel : List Nat),
      sel.length + fuel ≤ n → (∀ j ∈ sel, j < n) → sel.Nodup →
      mmrLoop n sQ sI d fuel sel = specLoop pick fuel sel := by
  intro fuel
  induction fuel with
  | zero => intro sel _ _ _; rfl
  | succ m ih =>
    intro sel hfit hsub hnodup
    have hlen : sel.length < n := by omega
    have hn : 0 < n := by omega
    have hpe := hpick sel hsub hlen hnodup
    have hplt : mmrPick n sQ sI d sel < n := mmrPick_lt n sQ sI d sel hn
    have hpnm : mmrPick n sQ sI d sel ∉ sel :=
      mmrPick_not_mem n sQ sI d sel hd0 hd1 hsq hsi hsub hlen hnodup
    simp only [mmrLoop, specLoop]
    rw [← hpe]
    apply ih
    · simp only [List.length_append, List.length_singleton]
      omega
    · intro j hj
      rcases List.mem_append.mp hj with h | h
      · exact hsub j h
      · rw [List.mem_singleton] at h
        subst h
        exact hplt
    · apply List.Nodup.append hnodup (List.nodup_singleton _)
      intro a ha hb
      rw [List.mem_singleton] at hb
      subst hb
      exact hpnm ha

/-- C7: with `diversity = 1` the MMR order is the pure relevance ranking
(raw similarity descending, stable ties by candidate position); with
`diversity = 0` the first pick is the most relevant candidate and every
subsequent pick is the not-yet-chosen candidate least similar to any
already-chosen one — both through the single scoring rule. -/
theorem mmr_degenerate_weights (emb : List (List ℚ)) (cand_idxs : List Nat)
    (cand_scores : List ℚ) (top_k : Nat)
    (hs : ∀ s ∈ cand_scores, -1 ≤ s)
    (hsi : ∀ i, i < cand_idxs.length → ∀ j, j < cand_idxs.length →
      simItemsOf emb cand_idxs i j ≤ 1) :
    mmr emb cand_idxs cand_scores top_k 1 =
      (pureRelevanceOrder (fun i => cand_scores.getD i 0) cand_idxs.length
        (min top_k cand_idxs.length)).map (fun j => cand_idxs.getD j 0) ∧
    mmr emb cand_idxs cand_scores top_k 0 =
      (antiRedundancyOrder (fun i => cand_scores.getD i 0)
        (simItemsOf emb cand_idxs) cand_idxs.length
        (min top_k cand_idxs.length)).map (fun j => cand_idxs.getD j 0) := by
  have hsq : ∀ i, i < cand_idxs.length → -1 ≤ cand_scores.getD i 0 := by
    intro i _
    by_cases hilt : i < cand_scores.length
    · rw [List.getD_eq_getElem _ _ hilt]
      exact hs _ (List.getElem_mem hilt)
    · rw [List.getD_eq_default _ _ (by omega)]
      norm_num
  constructor
  · unfold mmr mmrPositions pureRelevanceOrder
    congr 1
    apply mmrLoop_eq_specLoop cand_idxs.length _ _ 1 _ (by norm_num) (le_refl 1)
      hsq hsi
    · intro sel hsub hlen hnodup
      exact mmrPick_one_eq cand_idxs.length _ _ sel hsq hsub hlen
    · simp
    · simp
    · exact List.nodup_nil
  · unfold mmr mmrPositions antiRedundancyOrder
    congr 1
    apply mmrLoop_eq_specLoop cand_idxs.length _ _ 0 _ (le_refl 0) (by norm_num)
      hsq hsi
    · intro sel hsub hlen hnodup
      cases sel with
      | nil =>
        exact mmrPick_one_eq cand_idxs.length _ (simItemsOf emb cand_idxs) []
          hsq hsub hlen
      | cons s rest =>
        exact mmrPick_zero_cons cand_idxs.length _ _ s rest hsub hlen hsi
    · simp
    · simp
    · exact List.nodup_nil

theorem mmr_degenerate_weights_witness :
    ((∀ s ∈ [(1 : ℚ), 0], -1 ≤ s) ∧
      (∀ i, i < [0, 1].length → ∀ j, j < [0, 1].length →
        simItemsOf [[1], [0]] [0, 1] i j ≤ 1)) ∧
    (mmr [[1], [0]] [0, 1] [1, 0] 4 1 =
      (pureRelevanceOrder (fun i => [(1 : ℚ), 0].getD i 0) [0, 1].length
        (min 4 [0, 1].length)).map (fun j => [0, 1].getD j 0) ∧
    mmr [[1], [0]] [0, 1] [1, 0] 4 0 =
      (antiRedundancyOrder (fun i => [(1 : ℚ), 0].getD i 0)
        (simItemsOf [[1], [0]] [0, 1]) [0, 1].length
        (min 4 [0, 1].length)).map (fun j => [0, 1].getD j 0)) :=
  ⟨⟨by decide,
      by
        intro i hi j hj
        simp only [List.length_cons, List.length_nil] at hi hj
        interval_cases i <;> interval_cases j <;> norm_num [simItemsOf, dotQ]⟩,
    mmr_degenerate_weights [[1], [0]] [0, 1] [1, 0] 4 (by decide)
      (by
        intro i hi j hj
        simp only [List.length_cons, List.length_nil] at hi hj
        interval_cases i <;> interval_cases j <;> norm_num [simItemsOf, dotQ])⟩

/-! ### C8: attribute booster -/

instance rLex_total : IsTotal (Nat × Nat × ℚ) rLex := by
  constructor
  intro a b
  unfold rLex
  rcases lt_trichotomy a.2.2 b.2.2 with h | h | h
  · right
    left
    exact h
  · rcases Nat.le_total a.1 b.1 with hn | hn
    · left
      right
      exact ⟨h, hn⟩
    · right
      right
      exact ⟨h.symm, hn⟩
  · left
    left
    exact h

instance rLex_trans : IsTrans (Nat × Nat × ℚ) rLex := by
  constructor
  intro a b c hab hbc
  unfold rLex at hab hbc ⊢
  rcases hab with h1 | ⟨h1e, h1n⟩
  · rcases hbc with h2 | ⟨h2e, _⟩
    · left
      exact lt_trans h2 h1
    · left
      rw [← h2e]
      exact h1
  · rcases hbc with h2 | ⟨h2e, h2n⟩
    · left
      rw [h1e]
      exact h2
    · right
      exact ⟨h1e.trans h2e, le_trans h1n h2n⟩

theorem filterOfMap {α β : Type} (f : α → β) (p : β → Bool) :
    ∀ (l : List α), (l.map f).filter p = (l.filter (fun a => p (f a))).map f := by
  intro l
  induction l with
  | nil => rfl
  | cons x xs ih =>
    simp only [List.map_cons, List.filter_cons]
    by_cases h : p (f x) = true
    · rw [h]
      simp only [if_true, List.map_cons, ih]
    · rw [Bool.not_eq_true] at h
      rw [h]
      simp only [Bool.false_eq_true, if_false, ih]

theorem enum_pairwise_fst_lt (l : List (Nat × ℚ)) :
    l.enum.Pairwise (fun a b => a.1 < b.1) := by
  have h := List.pairwise_lt_range l.length
  rw [← List.enum_map_fst l] at h
  exact List.pairwise_map.mp h

theorem stableSortDesc_perm (l : List (Nat × ℚ)) :
    (stableSortDesc l).Perm l := by
  unfold stableSortDesc
  have h := (List.perm_insertionSort rLex l.enum).map Prod.snd
  rwa [List.enum_map_snd] at h

theorem stableSortDesc_sorted (l : List (Nat × ℚ)) :
    (stableSortDesc l).Pairwise (fun a b => b.2 ≤ a.2) := by
  unfold stableSortDesc
  have h : (l.enum.insertionSort rLex).Pairwise rLex :=
    List.sorted_insertionSort rLex l.enum
  apply List.pairwise_map.mpr
  apply h.imp
  intro a b hr
  rcases hr with hlt | ⟨heq, _⟩
  · exact le_of_lt hlt
  · exact le_of_eq heq.symm

theorem sortEnum_nodup_fst (l : List (Nat × ℚ)) :
    ((l.enum.insertionSort rLex).map Prod.fst).Nodup := by
  have hperm := (List.perm_insertionSort rLex l.enum).map Prod.fst
  rw [List.enum_map_fst] at hperm
  exact (List.Perm.nodup_iff hperm).mpr (List.nodup_range _)

theorem stableSortDesc_stable (l : List (Nat × ℚ)) (s : ℚ) :
    (stableSortDesc l).filter (fun x => decide (x.2 = s)) =
      l.filter (fun x => decide (x.2 = s)) := by
  unfold stableSortDesc
  rw [filterOfMap Prod.snd (fun x => decide (x.2 = s)) (l.enum.insertionSort rLex)]
  have hstep2 : l.filter (fun x => decide (x.2 = s)) =
      (l.enum.filter (fun a => decide (a.2.2 = s))).map Prod.snd := by
    conv_lhs => rw [← List.enum_map_snd l]
    exact filterOfMap _ _ l.enum
  rw [hstep2]
  congr 1
  have hperm : ((l.enum.insertionSort rLex).filter
      (fun a => decide (a.2.2 = s))).Perm
      (l.enum.filter (fun a => decide (a.2.2 = s))) :=
    (List.perm_insertionSort rLex l.enum).filter _
  have hsorted : (l.enum.insertionSort rLex).Pairwise rLex :=
    List.sorted_insertionSort rLex l.enum
  have hfsorted : ((l.enum.insertionSort rLex).filter
      (fun a => decide (a.2.2 = s))).Pairwise rLex :=
    hsorted.filter _
  have hle : ((l.enum.insertionSort rLex).filter
      (fun a => decide (a.2.2 = s))).Pairwise (fun a b => a.1 ≤ b.1) := by
    have hmem := List.Pairwise.and_mem.mp hfsorted
    apply hmem.imp
    rintro a b ⟨ha, hb, hr⟩
    have hpa : a.2.2 = s := of_decide_eq_true (List.mem_filter.mp ha).2
    have hpb : b.2.2 = s := of_decide_eq_true (List.mem_filter.mp hb).2
    rcases hr with hlt | ⟨_, hn⟩
    · exfalso
      rw [hpa, hpb] at hlt
      exact lt_irrefl s hlt
    · exact hn
  have hnodup : (((l.enum.insertionSort rLex).filter
      (fun a => decide (a.2.2 = s))).map Prod.fst).Nodup := by
    apply List.Nodup.sublist
      (List.Sublist.map Prod.fst (List.filter_sublist _))
    exact sortEnum_nodup_fst l
  have hne : ((l.enum.insertionSort rLex).filter
      (fun a => decide (a.2.2 = s))).Pairwise (fun a b => a.1 ≠ b.1) :=
    List.pairwise_map.mp hnodup
  have hOfst : ((l.enum.insertionSort rLex).filter
      (fun a => decide (a.2.2 = s))).Pairwise (fun a b => a.1 < b.1) :=
    (hle.and hne).imp (fun h => lt_of_le_of_ne h.1 h.2)
  have hEfst : (l.enum.filter (fun a => decide (a.2.2 = s))).Pairwise
      (fun a b => a.1 < b.1) :=
    (enum_pairwise_fst_lt l).filter _
  haveI : IsAntisymm (Nat × Nat × ℚ) (fun a b => a.1 < b.1) :=
    ⟨fun a b h1 h2 => absurd h2 (Nat.lt_asymm h1)⟩
  exact List.eq_of_perm_of_sorted hperm hOfst hEfst

theorem adjustedScore_eq_spec (emb : List (List ℚ)) (df : List Entry)
    (q : List ℚ) (f : Option FilterSpec) (idx : Nat) :
    adjustedScore emb df q f idx = adjustedScoreSpec emb df q f idx := by
  unfold adjustedScore adjustedScoreSpec
  cases f with
  | none => simp
  | some f =>
    dsimp only
    simp only [Bool.and_eq_true, beq_iff_eq]
    cases f.price_max with
    | none => split_ifs <;> ring
    | some mx =>
      by_cases hpx : (df.getD idx default).price ≤ mx
      · simp only [if_pos hpx]
        split_ifs <;> ring
      · simp only [if_neg hpx]
        split_ifs <;> ring

/-- C8: each item chosen by MMR receives, as its final adjusted score,
the recomputed exact query·itemVector similarity plus the per-field
bonuses of the specification; and the boost phase outputs the stable
descending-by-score sort of the scored chosen set (permutation, scores
non-increasing, ties kept in prior order). -/
theorem attribute_booster (emb : List (List ℚ)) (df : List Entry)
    (q : List ℚ) (f : Option FilterSpec) (top_k : Nat) (pick_idxs : List Nat)
    (hlen : pick_idxs.length ≤ top_k) :
    (∀ p ∈ boostAndSort emb df q f top_k pick_idxs,
      p.2 = adjustedScoreSpec emb df q f p.1) ∧
    IsStableSortDesc
      (pick_idxs.map (fun i => (i, adjustedScoreSpec emb df q f i)))
      (boostAndSort emb df q f top_k pick_idxs) := by
  have hmapeq : pick_idxs.map (fun i => (i, adjustedScore emb df q f i)) =
      pick_idxs.map (fun i => (i, adjustedScoreSpec emb df q f i)) := by
    apply List.map_congr_left
    intro i _
    rw [adjustedScore_eq_spec]
  have hbody : boostAndSort emb df q f top_k pick_idxs =
      stableSortDesc (pick_idxs.map (fun i => (i, adjustedScoreSpec emb df q f i))) := by
    unfold boostAndSort
    rw [hmapeq]
    apply List.take_of_length_le
    rw [stableSortDesc_length, List.length_map]
    exact hlen
  constructor
  · intro p hp
    rw [hbody] at hp
    have hperm := stableSortDesc_perm
      (pick_idxs.map (fun i => (i, adjustedScoreSpec emb df q f i)))
    have hpin := hperm.mem_iff.mp hp
    rcases List.mem_map.mp hpin with ⟨i, _, hpi⟩
    rw [← hpi]
  · rw [hbody]
    exact ⟨stableSortDesc_perm _, stableSortDesc_sorted _,
      fun s => stableSortDesc_stable _ s⟩

theorem attribute_booster_witness :
    [0, 1].length ≤ 3 ∧
    ((∀ p ∈ boostAndSort [[1], [1]] exDfA [1] none 3 [0, 1],
      p.2 = adjustedScoreSpec [[1], [1]] exDfA [1] none p.1) ∧
    IsStableSortDesc
      ([0, 1].map (fun i => (i, adjustedScoreSpec [[1], [1]] exDfA [1] none i)))
      (boostAndSort [[1], [1]] exDfA [1] none 3 [0, 1])) :=
  ⟨by decide, attribute_booster [[1], [1]] exDfA [1] none 3 [0, 1] (by decide)⟩

/-! ### C5: deduplication by normalized (title, brand) -/

theorem addUniqueGo_zero (df : List Entry) (seen : List (String × String))
    (out : List Nat) (pool : List Nat) : addUniqueGo df 0 seen out pool = out := by
  cases pool with
  | nil => rfl
  | cons i rest =>
    simp only [addUniqueGo]
    rw [if_pos (Nat.zero_le _)]

theorem keywordFallback_zero (df : List Entry) (f : FilterSpec)
    (user_text : String) : keywordFallback df f user_text 0 = [] := by
  simp only [keywordFallback, List.take_zero, List.map_nil]

theorem pickWithFilters_zero (df : List Entry) (f : FilterSpec) (mu : Nat)
    (scored : List (Nat × ℚ)) : pickWithFilters df f 0 mu scored = [] := by
  have hstages : pickStages df f 0 (scored.map Prod.fst) = [] := by
    have h1 : pickStage1 df f 0 (scored.map Prod.fst) = [] := by
      unfold pickStage1 addUnique
      rw [addUniqueGo_zero]
    have h2 : pickStage2 df f 0 (scored.map Prod.fst) [] = [] := by
      unfold pickStage2
      rw [if_neg]
      rintro ⟨hc, _⟩
      simp at hc
    have h3 : pickStage3 df f 0 (scored.map Prod.fst) [] = [] := by
      unfold pickStage3
      rw [if_neg]
      rintro ⟨hc, _⟩
      simp at hc
    unfold pickStages
    rw [h1, h2, h3]
  simp only [pickWithFilters]
  rw [hstages]
  split
  · unfold addUnique
    rw [addUniqueGo_zero, List.take_nil]
  · rfl

theorem pickStages_keys_nodup (df : List Entry) (f : FilterSpec)
    (top_k : Nat) (cand_idxs : List Nat) :
    ((pickStages df f top_k cand_idxs).map (dedupKeyAt df)).Nodup := by
  have h1 : ((pickStage1 df f top_k cand_idxs).map (dedupKeyAt df)).Nodup := by
    unfold pickStage1
    exact addUnique_keys_nodup df top_k [] _ (by simp)
  have h2 : ((pickStage2 df f top_k cand_idxs
      (pickStage1 df f top_k cand_idxs)).map (dedupKeyAt df)).Nodup := by
    unfold pickStage2
    split
    · exact addUnique_keys_nodup df top_k _ _ h1
    · exact h1
  unfold pickStages pickStage3
  split
  · exact addUnique_keys_nodup df top_k _ _ h2
  · exact h2

theorem pickWithFilters_keys_nodup (df : List Entry) (f : FilterSpec)
    (top_k mu : Nat) (scored : List (Nat × ℚ)) :
    ((pickWithFilters df f top_k mu scored).map (dedupKeyAt df)).Nodup := by
  simp only [pickWithFilters]
  split
  · have hbase : ((addUnique df top_k [] (scored.map Prod.fst)).map
        (dedupKeyAt df)).Nodup :=
      addUnique_keys_nodup df top_k [] _ (by simp)
    exact List.Nodup.sublist (List.Sublist.map _ (List.take_sublist _ _)) hbase
  · exact pickStages_keys_nodup df f top_k _

theorem mem_pickStages_cand (df : List Entry) (f : FilterSpec) (top_k : Nat)
    (cand_idxs : List Nat) (x : Nat)
    (h : x ∈ pickStages df f top_k cand_idxs) : x ∈ cand_idxs := by
  have h1 : ∀ y ∈ pickStage1 df f top_k cand_idxs, y ∈ cand_idxs := by
    intro y hy
    unfold pickStage1 at hy
    rcases addUnique_subset df top_k [] _ y hy with h' | h'
    · simp at h'
    · exact (List.mem_filter.mp h').1
  have h2 : ∀ y ∈ pickStage2 df f top_k cand_idxs
      (pickStage1 df f top_k cand_idxs), y ∈ cand_idxs := by
    intro y hy
    unfold pickStage2 at hy
    split at hy
    · rcases addUnique_subset df top_k _ _ y hy with h' | h'
      · exact h1 y h'
      · exact (List.mem_filter.mp h').1
    · exact h1 y hy
  unfold pickStages pickStage3 at h
  split at h
  · rcases addUnique_subset df top_k _ _ x h with h' | h'
    · exact h2 x h'
    · exact (List.mem_filter.mp h').1
  · exact h2 x h

theorem mem_pickWithFilters_cand (df : List Entry) (f : FilterSpec)
    (top_k mu : Nat) (scored : List (Nat × ℚ)) (x : Nat)
    (h : x ∈ pickWithFilters df f top_k mu scored) : x ∈ scored.map Prod.fst := by
  simp only [pickWithFilters] at h
  split at h
  · have hx := List.mem_of_mem_take h
    rcases addUnique_subset df top_k [] _ x hx with h' | h'
    · simp at h'
    · exact h'
  · exact mem_pickStages_cand df f top_k _ x h

theorem kwRow_shape (df : List Entry) (f : FilterSpec) (textL : String)
    (tokenSet : List String) (i : Nat) :
    kwRow df f textL tokenSet i = none ∨
    ∃ s, kwRow df f textL tokenSet i = some (i, s) := by
  unfold kwRow
  dsimp only
  split_ifs <;> simp

theorem kwRow_fst (df : List Entry) (f : FilterSpec) (textL : String)
    (tokenSet : List String) (i : Nat) (p : Nat × ℚ)
    (h : kwRow df f textL tokenSet i = some p) : p.1 = i := by
  rcases kwRow_shape df f textL tokenSet i with hn | ⟨s, hs⟩
  · rw [hn] at h
    exact Option.noConfusion h
  · rw [hs] at h
    injection h with h2
    rw [← h2]

theorem keywordFallback_mem_lt (df : List Entry) (f : FilterSpec)
    (user_text : String) (top_k : Nat) (x : Nat)
    (h : x ∈ keywordFallback df f user_text top_k) : x < df.length := by
  unfold keywordFallback at h
  rcases List.mem_map.mp h with ⟨p, hp, hpx⟩
  have hp2 := List.mem_of_mem_take hp
  have hp3 := (stableSortDesc_perm _).mem_iff.mp hp2
  rcases List.mem_filterMap.mp hp3 with ⟨i, hipool, hrow⟩
  have hfst := kwRow_fst df f _ _ i p hrow
  have hiR : i < df.length := by
    unfold kwPool at hipool
    split at hipool
    · exact List.mem_range.mp (List.mem_filter.mp hipool).1
    · exact List.mem_range.mp hipool
  rw [← hpx, hfst]
  exact hiR

theorem chatPostFilter_sublist (df : List Entry) (f : FilterSpec)
    (products : List Nat) :
    List.Sublist (chatPostFilter df f products) products := by
  unfold chatPostFilter
  split
  · exact List.filter_sublist _
  · exact List.Sublist.refl _

theorem pickWithFilters_ne_nil (df : List Entry) (f : FilterSpec)
    (top_k mu : Nat) (scored : List (Nat × ℚ))
    (hmu : 1 ≤ mu) (htop : 1 ≤ top_k)
    (hlen : mu ≤ (scored.map Prod.fst).length) :
    pickWithFilters df f top_k mu scored ≠ [] := by
  simp only [pickWithFilters]
  split
  · rename_i hov
    have hcand_ne : scored.map Prod.fst ≠ [] := by
      rw [← List.length_pos]
      omega
    have hkeys1 : 1 ≤ distinctKeyCount df (scored.map Prod.fst) := by
      unfold distinctKeyCount
      apply Finset.card_pos.mpr
      rcases List.exists_mem_of_ne_nil _ hcand_ne with ⟨y, hy⟩
      exact ⟨dedupKeyAt df y, List.mem_toFinset.mpr (List.mem_map_of_mem _ hy)⟩
    have hge := addUniqueGo_length_ge df top_k (scored.map Prod.fst) [] []
      (by simp)
    rw [newKeyCount_nil_seen df] at hge
    simp only [List.length_nil, Nat.zero_add] at hge
    rw [← List.length_pos, List.length_take]
    have hmin1 : 1 ≤ min top_k (distinctKeyCount df (scored.map Prod.fst)) := by
      omega
    unfold addUnique
    simp only [List.map_nil]
    omega
  · rename_i hov
    rw [not_and] at hov
    have hst : ¬ (pickStages df f top_k (scored.map Prod.fst)).length < mu :=
      fun hc => hov hc hlen
    rw [← List.length_pos]
    omega

/-- Core dedup lemma at a natural `top_k`: two catalog entries with
identical normalized (title, brand) never both appear in one chat result
list. `mu` is `MIN_UNIQUE_RESULTS ≥ 1` (default 2); the hypothesis
`mu ≤ |scored| ∨ |catalog| ≤ 1` holds for every real query because the
vector search returns `min(fetchK, n)` candidates with `fetchK ≥ 100`. -/
theorem dedup_by_title_brand (df : List Entry) (f : FilterSpec)
    (user_text : String) (top_k mu : Nat) (scored : List (Nat × ℚ))
    (hmu : 1 ≤ mu)
    (hvalid : ∀ i ∈ scored.map Prod.fst, i < df.length)
    (hreach : mu ≤ scored.length ∨ df.length ≤ 1) :
    ((chatProducts df f user_text top_k mu scored).map (dedupKeyAt df)).Nodup := by
  rcases hreach with hA | hB
  · by_cases htop : 1 ≤ top_k
    · -- the pipeline returns a non-empty, key-deduplicated list
      have hlen2 : mu ≤ (scored.map Prod.fst).length := by
        rw [List.length_map]
        exact hA
      have hne := pickWithFilters_ne_nil df f top_k mu scored hmu htop hlen2
      have hkeys := pickWithFilters_keys_nodup df f top_k mu scored
      have hiff : (pickWithFilters df f top_k mu scored).isEmpty = false := by
        cases hc : pickWithFilters df f top_k mu scored with
        | nil => exact absurd hc hne
        | cons a t => rfl
      have hpre : chatProductsPre df f user_text top_k mu scored =
          chatPostFilter df f (pickWithFilters df f top_k mu scored) := by
        simp only [chatProductsPre, hiff, Bool.false_eq_true, if_false]
      have hsub : List.Sublist (chatProducts df f user_text top_k mu scored)
          (pickWithFilters df f top_k mu scored) := by
        unfold chatProducts dedupById
        rw [hpre]
        exact (dedupByIdGo_sublist df _ []).trans (chatPostFilter_sublist df f _)
      exact List.Nodup.sublist (List.Sublist.map _ hsub) hkeys
    · -- top_k = 0: everything is empty
      have h0 : top_k = 0 := by omega
      subst h0
      have hchos := pickWithFilters_zero df f mu scored
      have hpre : chatProductsPre df f user_text 0 mu scored = [] := by
        simp only [chatProductsPre, hchos, List.isEmpty_nil, if_true,
          keywordFallback_zero]
        unfold chatPostFilter
        split <;> rfl
      have hfin : chatProducts df f user_text 0 mu scored = [] := by
        unfold chatProducts dedupById
        rw [hpre]
        rfl
      rw [hfin]
      simp
  · -- catalog of at most one row: at most one product can survive
    have hids : ((chatProducts df f user_text top_k mu scored).map
        (fun i => (df.getD i default).id)).Nodup :=
      dedupByIdGo_ids_nodup df _ []
    have hmemL : ∀ x ∈ chatProducts df f user_text top_k mu scored,
        x < df.length := by
      intro x hx
      have hx2 : x ∈ chatProductsPre df f user_text top_k mu scored :=
        (dedupByIdGo_sublist df _ []).subset hx
      simp only [chatProductsPre] at hx2
      have hx3 := (chatPostFilter_sublist df f _).subset hx2
      split at hx3
      · exact keywordFallback_mem_lt df f user_text top_k x hx3
      · exact hvalid x (mem_pickWithFilters_cand df f top_k mu scored x hx3)
    cases hLe : chatProducts df f user_text top_k mu scored with
    | nil => simp [hLe]
    | cons a t =>
      cases t with
      | nil => simp [hLe]
      | cons b t2 =>
        exfalso
        have ha : a < df.length :=
          hmemL a (by rw [hLe]; exact List.mem_cons_self _ _)
        have hb : b < df.length :=
          hmemL b (by rw [hLe]; exact List.mem_cons_of_mem _ (List.mem_cons_self _ _))
        have ha0 : a = 0 := by omega
        have hb0 : b = 0 := by omega
        rw [hLe] at hids
        simp only [List.map_cons, List.nodup_cons] at hids
        apply hids.1
        rw [ha0, hb0]
        exact List.mem_cons_self _ _

/-! ### C5 revisited: the raw integer `req.top_k` and the fallback slice -/

/-- Python list slicing `l[:k]` for an arbitrary integer bound: a
non-negative bound keeps the first `k` items; a negative bound keeps all
but the last `|k|` items (empty when `|k| ≥ len`). -/
def sliceTo {α : Type} (k : Int) (l : List α) : List α :=
  if 0 ≤ k then l.take k.toNat else l.take (l.length - (-k).toNat)

/-- `_keyword_fallback(user_text, filters, top_k)` with the raw integer
`top_k` the chat handler passes (`req.top_k`, an unconstrained pydantic
int): the final `scores[:top_k]` is a Python slice, so a negative
`top_k` keeps all but the last `|top_k|` scored rows. -/
def keywordFallbackI (df : List Entry) (f : FilterSpec) (user_text : String)
    (top_k : Int) : List Nat :=
  let textL := lowerStr user_text
  let tokenSet := (kwTokens user_text).dedup
  let scores := (kwPool df f).filterMap (kwRow df f textL tokenSet)
  (sliceTo top_k (stableSortDesc scores)).map Prod.fst

/-- TEXT_RECOMMEND chat products with the raw integer `req.top_k`.
Inside `_pick_with_filters` a negative `top_k` behaves exactly like 0:
`len(out) >= top_k` is always true (so every `add_unique` returns its
seed), `len(chosen) < top_k` is always false (so stages 2–3 are
skipped), and `[:max(min_unique, top_k)]` equals `[:min_unique]`; hence
`Int.toNat` is a faithful bridge there. Only the fallback's final slice
distinguishes negative values, modelled by `keywordFallbackI`. -/
def chatProductsPreI (df : List Entry) (f : FilterSpec) (user_text : String)
    (top_k : Int) (min_unique : Nat) (scored : List (Nat × ℚ)) : List Nat :=
  let chosen := pickWithFilters df f top_k.toNat min_unique scored
  let products := if chosen.isEmpty then keywordFallbackI df f user_text top_k
    else chosen
  chatPostFilter df f products

/-- Products of the chat TEXT_RECOMMEND branch as returned in the
`ChatResponse`, with the raw integer `req.top_k`. -/
def chatProductsI (df : List Entry) (f : FilterSpec) (user_text : String)
    (top_k : Int) (min_unique : Nat) (scored : List (Nat × ℚ)) : List Nat :=
  dedupById df (chatProductsPreI df f user_text top_k min_unique scored)

theorem keywordFallbackI_nonneg (df : List Entry) (f : FilterSpec)
    (user_text : String) (k : Int) (hk : 0 ≤ k) :
    keywordFallbackI df f user_text k = keywordFallback df f user_text k.toNat := by
  simp only [keywordFallbackI, keywordFallback, sliceTo, hk, if_true]

theorem chatProductsI_nonneg (df : List Entry) (f : FilterSpec)
    (user_text : String) (k : Int) (mu : Nat) (scored : List (Nat × ℚ))
    (hk : 0 ≤ k) :
    chatProductsI df f user_text k mu scored =
      chatProducts df f user_text k.toNat mu scored := by
  unfold chatProductsI chatProducts
  congr 1
  unfold chatProductsPreI chatProductsPre
  rw [keywordFallbackI_nonneg df f user_text k hk]

/-- Three-row catalog: rows 0 and 1 share the normalized (title, brand)
dedup key ("red shirt", "acme") under different ids; row 2 scores lower
on the query "red shirt". -/
def exDfC : List Entry :=
  [⟨"a1", "Red Shirt", "", "t-shirt", "Acme", 25, "USD", "", ""⟩,
   ⟨"a2", "Red Shirt!!", "", "t-shirt", "ACME", 27, "USD", "", ""⟩,
   ⟨"b1", "Blue Sock", "red", "socks", "Bravo", 5, "USD", "", ""⟩]

theorem exC_row0_score : kwRow exDfC {} "red shirt" ["red", "shirt"] 0 =
    some (0, 2) := by
  simp +decide [kwRow, kwBase]

theorem exC_row1_score : kwRow exDfC {} "red shirt" ["red", "shirt"] 1 =
    some (1, 2) := by
  simp +decide [kwRow, kwBase]

theorem exC_row2_score : kwRow exDfC {} "red shirt" ["red", "shirt"] 2 =
    some (2, 1) := by
  simp +decide [kwRow, kwBase]

theorem exC_fallback_eval :
    keywordFallbackI exDfC {} "red shirt" (-1) = [0, 1] := by
  show (sliceTo (-1) (stableSortDesc ((kwPool exDfC {}).filterMap
      (kwRow exDfC {} (lowerStr "red shirt")
        ((kwTokens "red shirt").dedup))))).map Prod.fst = [0, 1]
  rw [show lowerStr "red shirt" = "red shirt" from by decide]
  rw [show (kwTokens "red shirt").dedup = ["red", "shirt"] from by decide]
  rw [show kwPool exDfC {} = [0, 1, 2] from by decide]
  rw [show ([0, 1, 2].filterMap (kwRow exDfC {} "red shirt" ["red", "shirt"])) =
      [(0, 2), (1, 2), (2, 1)] from by
    simp [List.filterMap_cons, exC_row0_score, exC_row1_score, exC_row2_score]]
  rw [show stableSortDesc [(0, (2 : ℚ)), (1, 2), (2, 1)] =
      [(0, 2), (1, 2), (2, 1)] from by decide]
  decide

/-- C5 counterexample: a request with `top_k = -1` (reachable: pydantic
does not bound `req.top_k`, and the handler passes it unclamped) empties
every relaxation stage and the override, so the keyword fallback runs;
its `scores[:top_k]` is a negative slice keeping all but the last scored
row, with no (title, brand) dedup — rows 0 and 1, which share the
normalized dedup key under different ids, both appear in the response. -/
theorem dedup_by_title_brand_counterexample :
    chatProductsI exDfC {} "red shirt" (-1) 2 [(0, 1), (1, 1), (2, 1)] = [0, 1] ∧
    dedupKeyAt exDfC 0 = dedupKeyAt exDfC 1 ∧
    (exDfC.getD 0 default).id ≠ (exDfC.getD 1 default).id := by
  refine ⟨?_, by decide, by decide⟩
  show dedupById exDfC (chatPostFilter exDfC {}
    (if (pickWithFilters exDfC {} ((-1 : Int)).toNat 2
        [(0, 1), (1, 1), (2, 1)]).isEmpty
      then keywordFallbackI exDfC {} "red shirt" (-1)
      else pickWithFilters exDfC {} ((-1 : Int)).toNat 2
        [(0, 1), (1, 1), (2, 1)])) = [0, 1]
  rw [show ((-1 : Int)).toNat = 0 from rfl,
    pickWithFilters_zero exDfC {} 2 [(0, 1), (1, 1), (2, 1)]]
  rw [exC_fallback_eval]
  decide

/-- C5 amended: for every chat request whose raw `req.top_k` is
non-negative (in particular for all defaulted or UI-issued requests),
two catalog entries with identical normalized (title, brand) but
different ids never both appear in one result list, under the same
reachability envelope as before (`MIN_UNIQUE_RESULTS ≥ 1` and at least
`min_unique` search candidates unless the catalog has at most one row).
A negative `req.top_k` voids the guarantee through the fallback's
negative slice. -/
theorem dedup_by_title_brand_nonneg (df : List Entry) (f : FilterSpec)
    (user_text : String) (top_k : Int) (mu : Nat) (scored : List (Nat × ℚ))
    (htop : 0 ≤ top_k) (hmu : 1 ≤ mu)
    (hvalid : ∀ i ∈ scored.map Prod.fst, i < df.length)
    (hreach : mu ≤ scored.length ∨ df.length ≤ 1) :
    ((chatProductsI df f user_text top_k mu scored).map (dedupKeyAt df)).Nodup := by
  rw [chatProductsI_nonneg df f user_text top_k mu scored htop]
  exact dedup_by_title_brand df f user_text top_k.toNat mu scored hmu hvalid hreach

theorem dedup_by_title_brand_nonneg_witness :
    ((0 : Int) ≤ 5 ∧ (1 : Nat) ≤ 2 ∧
      (∀ i ∈ [(0, (3 : ℚ)), (1, 2)].map Prod.fst, i < exDfA.length) ∧
      (2 ≤ ([(0, (3 : ℚ)), (1, 2)] : List (Nat × ℚ)).length ∨ exDfA.length ≤ 1)) ∧
    ((chatProductsI exDfA {} "shirt" 5 2 [(0, 3), (1, 2)]).map
      (dedupKeyAt exDfA)).Nodup :=
  ⟨⟨by decide, by decide, by decide, Or.inl (by decide)⟩,
    dedup_by_title_brand_nonneg exDfA {} "shirt" 5 2 [(0, 3), (1, 2)]
      (by decide) (by decide) (by decide) (Or.inl (by decide))⟩
